import Mathlib

/-!
# Verification of the chunked-tar container and tar-restore driver

Shallow embedding of the `chunktar` package (Writer in `part_000`, Reader in
`part_001`) and of `mongorestore`'s `RestoreTarDump` / `TarRestoreState`
(`src/mongorestore/chunktar.go`), with proofs of the spec's claims about them.

Modelling conventions:
* Go strings are modelled as `List Char` (all names involved are ASCII, where
  Go's byte-wise regex agrees with the rune view).
* Byte payloads are `List Nat` (contents are opaque to the container layer).
* Go's `nil`-able maps and pointers are `Option`.
* The Writer's background goroutine is serialized by the `wait.Wait()` barrier
  at every swap and flush, so it is embedded sequentially: a swap appends the
  chunk to the archive in swap order, which is the order `writeOutput` runs.
-/

namespace Chunktar

/-- `bufferThreshold = 4 * 1024 * 1024` from the source. -/
def bufferThreshold : Nat := 4 * 1024 * 1024

/-- `bufferLimit = bufferThreshold * 2` from the source. -/
def bufferLimit : Nat := bufferThreshold * 2

/-! ## Decimal formatting (`fmt.Sprintf("%s.%012d", name, chunkCount)`) -/

/-- The ASCII digit character for `d < 10` (as Go's `%d` prints one digit). -/
def digitChar : Nat → Char
  | 0 => '0'
  | 1 => '1'
  | 2 => '2'
  | 3 => '3'
  | 4 => '4'
  | 5 => '5'
  | 6 => '6'
  | 7 => '7'
  | 8 => '8'
  | _ => '9'

/-- Decimal digits of `n`, most significant first, as Go's `%d` prints them. -/
def natDigits (n : Nat) : List Char :=
  if h : n < 10 then [digitChar n]
  else natDigits (n / 10) ++ [digitChar (n % 10)]
termination_by n
decreasing_by exact Nat.div_lt_self (by omega) (by omega)

/-- Go's `%012d`: the decimal digits of `n`, left-padded with zeros to a
minimum width of 12 (wider numbers are printed unpadded). -/
def pad12 (n : Nat) : List Char :=
  List.replicate (12 - (natDigits n).length) '0' ++ natDigits n

/-- The chunk entry name `fmt.Sprintf("%s.%012d", name, chunkCount)`. -/
def chunkEntryName (nm : List Char) (k : Nat) : List Char :=
  nm ++ '.' :: pad12 k

/-- ASCII digit test, as the regex class `\d` matches a byte in `0`..`9`. -/
def isDigitCh (c : Char) : Bool :=
  48 ≤ c.toNat && c.toNat ≤ 57

/-- Value of a run of ASCII digits, as `strconv.ParseUint(s, 10, 64)` computes
it (the 12-digit runs in play never overflow a `uint64`). -/
def digitsToNat (cs : List Char) : Nat :=
  cs.foldl (fun a c => a * 10 + (c.toNat - 48)) 0

/-- The anchored match of `chunkFileNameRegex = ^(.+)\.(\d{12})$` against an
entry name.  Because `\d{12}` has fixed width, a match (if any) splits the
name uniquely: the last 12 characters are digits, preceded by `'.'`, preceded
by a non-empty base.  Returns the base and the parsed chunk number. -/
def parseChunkName (nm : List Char) : Option (List Char × Nat) :=
  if 14 ≤ nm.length then
    if (nm.drop (nm.length - 13)).head? = some '.'
        && ((nm.drop (nm.length - 13)).drop 1).all isDigitCh then
      some (nm.take (nm.length - 13), digitsToNat ((nm.drop (nm.length - 13)).drop 1))
    else none
  else none

/-! ## Chunked Writer (`chunktar.Writer`, `src/unnamed/part_000`)

State fields mirror the Go struct; the `tarWriter` is embedded as the list of
`(name, body)` entries written to it so far, in the order the serialized
background task emits them.  `outputError` never fires because the underlying
sink is modelled as infallible; the only modelled failure is the
"chunktar.Writer not open" error, rendered as `none`. -/

/-- A tar entry as the writer's background task emits it: name and body
(mode/mtime are not semantically significant). -/
abbrev TarEntry := List Char × List Nat

structure WriterState where
  name : List Char
  chunkCount : Nat
  inputBuffer : List Nat
  archive : List TarEntry
  isOpen : Bool
deriving DecidableEq

def initWriter : WriterState :=
  { name := [], chunkCount := 0, inputBuffer := [], archive := [], isOpen := true }

/-- `Writer.swapInOut`: wait for the background task (serialization point),
name the chunk `<name>.%012d(chunkCount)`, bump the counter, hand the filled
buffer to the background task (which writes header+body to the tar writer),
and continue with an empty input buffer. -/
def swapInOut (st : WriterState) : WriterState :=
  { st with
    chunkCount := st.chunkCount + 1,
    archive := st.archive ++ [(chunkEntryName st.name st.chunkCount, st.inputBuffer)],
    inputBuffer := [] }

/-- The body of `Writer.Flush` after the open-check: swap only when the input
buffer is non-empty (the tar-level flush and barrier are no-ops here). -/
def flushBuffered (st : WriterState) : WriterState :=
  if 0 < st.inputBuffer.length then swapInOut st else st

/-- The iterations of `Writer.Write`'s for-loop with `start > 0`: each one
swaps out the full input buffer and copies the next `≤ bufferLimit` segment
`b[start:stop]` into the fresh buffer. -/
def writeSegs (st : WriterState) (bs : List Nat) : WriterState :=
  if bs.isEmpty then st
  else writeSegs { swapInOut st with inputBuffer := bs.take bufferLimit }
    (bs.drop bufferLimit)
termination_by bs.length
decreasing_by
  rename_i h
  simp only [List.isEmpty_iff] at h
  have h0 : 0 < bs.length := List.length_pos_of_ne_nil h
  have hL : 0 < bufferLimit := by decide
  simp only [List.length_drop]
  omega

/-- The body of `Writer.Write` after the open-check.  The first loop iteration
(`start = 0`) appends `b[0:stop₀]` with `stop₀ = min(len b, bufferLimit - len
inputBuffer)` without swapping; subsequent iterations are `writeSegs`; finally
one swap is forced if the buffer exceeds `bufferThreshold`.  (For the states
arising from the API, `len inputBuffer ≤ bufferThreshold < bufferLimit` holds
throughout — established by `runWOps_inputBuffer_le` below — which is the
regime in which this translation tracks the Go index arithmetic.) -/
def writeBytes (st : WriterState) (b : List Nat) : WriterState :=
  let stLoop :=
    if b.isEmpty then st
    else
      let stop0 := min b.length (bufferLimit - st.inputBuffer.length)
      writeSegs { st with inputBuffer := st.inputBuffer ++ b.take stop0 }
        (b.drop stop0)
  if bufferThreshold < stLoop.inputBuffer.length then swapInOut stLoop else stLoop

/-- A producer operation: `WriteHeader`, `Write`, or `Flush` (Close is applied
once at the end of a run). -/
inductive WOp where
  | header (nm : List Char)
  | write (b : List Nat)
  | flush
deriving DecidableEq

/-- One API call.  Every operation first checks `w.open` ("chunktar.Writer not
open" renders as `none`).  `WriteHeader` flushes the previous entry, then
records the new name and resets the chunk counter. -/
def runWOp (st : WriterState) (op : WOp) : Option WriterState :=
  if st.isOpen then
    some (match op with
      | .header nm => { flushBuffered st with name := nm, chunkCount := 0 }
      | .write b => writeBytes st b
      | .flush => flushBuffered st)
  else none

def runWOps (st : WriterState) : List WOp → Option WriterState
  | [] => some st
  | op :: ops =>
    match runWOp st op with
    | none => none
    | some st1 => runWOps st1 ops

/-- `Writer.Close`: flush, close the underlying tar writer, mark closed. -/
def closeWriter (st : WriterState) : Option WriterState :=
  if st.isOpen then some { flushBuffered st with isOpen := false } else none

/-- Run a fresh writer through `ops` and then `Close`. -/
def runWriter (ops : List WOp) : Option WriterState :=
  (runWOps initWriter ops).bind closeWriter

/-- The tar archive produced by a complete writer run. -/
def archiveOf (ops : List WOp) : Option (List TarEntry) :=
  (runWriter ops).map WriterState.archive

/-- The chunk entries of one logical file whose chunk bodies are `bodies`,
numbered consecutively from `start`. -/
def chunksOf (nm : List Char) (start : Nat) : List (List Nat) → List TarEntry
  | [] => []
  | b :: bs => (chunkEntryName nm start, b) :: chunksOf nm (start + 1) bs

/-- A whole archive laid out file-by-file from per-file chunk bodies (each
file's chunks numbered from 0). -/
def archiveFor (specs : List (List Char × List (List Nat))) : List TarEntry :=
  specs.flatMap (fun s => chunksOf s.1 0 s.2)

/-- The producer calls for one logical file: `WriteHeader nm` then the given
`Write` calls. -/
def entryOps (nm : List Char) (ws : List (List Nat)) : List WOp :=
  WOp.header nm :: ws.map WOp.write

/-- The producer calls for a sequence of logical files (no explicit `Flush`;
`Close` is applied by `runWriter`). -/
def pairsOps (specs : List (List Char × List (List Nat))) : List WOp :=
  specs.flatMap (fun s => entryOps s.1 s.2)

/-- How a logical file's `Write` payloads `ws` relate to the chunk bodies the
writer emitted for it: same bytes in order, every chunk non-empty and at most
`bufferLimit`, and every chunk but the last larger than `bufferThreshold`. -/
def EntryChunksOK (ws bodies : List (List Nat)) : Prop :=
  bodies.flatten = ws.flatten
    ∧ (∀ x ∈ bodies, x ≠ [] ∧ x.length ≤ bufferLimit)
    ∧ (∀ x ∈ bodies.dropLast, bufferThreshold < x.length)

/-! ## Chunked Reader (`chunktar.Reader`, `src/unnamed/part_001`)

`entries` is the rest of the tar stream; `current` the unread bytes of the
entry the tar reader is positioned in.  Go uses the empty string as the
"none" sentinel for both `name` and `nextName`, and `io.EOF` both for archive
end (from `tarReader.Next`) and entry end (from `tarReader.Read`); the model
keeps both conventions. -/

structure ReaderState where
  entries : List TarEntry
  current : List Nat
  name : List Char
  number : Nat
  nextName : List Char
deriving DecidableEq

def initReader (archive : List TarEntry) : ReaderState :=
  { entries := archive, current := [], name := [], number := 0, nextName := [] }

/-- Reader-side errors: `io.EOF` plus the two validation failures of
`nextChunk` ("chunks out of order", "missing first chunk"). -/
inductive RErr where
  | eof
  | chunkOrder
  | missingFirst
deriving DecidableEq

/-- `Reader.nextChunk`: advance the tar reader one entry and validate it
against the current logical file. -/
def nextChunk (st : ReaderState) : Except RErr ReaderState :=
  match st.entries with
  | [] => .error .eof
  | (nm, body) :: rest =>
    match parseChunkName nm with
    | some (base, k) =>
      if base = st.name then
        if k ≠ st.number + 1 then .error .chunkOrder
        else .ok { st with entries := rest, current := body, number := k }
      else if k ≠ 0 then .error .missingFirst
      else .ok { st with entries := rest, current := body, nextName := base, name := [] }
    | none => .ok { st with entries := rest, current := body, nextName := nm, name := [] }

theorem nextChunk_ok_entries {st st1 : ReaderState} (h : nextChunk st = .ok st1) :
    st1.entries.length < st.entries.length := by
  unfold nextChunk at h
  cases he : st.entries with
  | nil => rw [he] at h; exact absurd h (by simp)
  | cons e rest =>
    obtain ⟨nm, body⟩ := e
    rw [he] at h
    simp only at h
    cases hp : parseChunkName nm with
    | none =>
      rw [hp] at h
      simp only [Except.ok.injEq] at h
      subst h
      simp [he]
    | some bk =>
      obtain ⟨base, k⟩ := bk
      rw [hp] at h
      simp only at h
      split at h
      · split at h
        · exact absurd h (by simp)
        · simp only [Except.ok.injEq] at h
          subst h
          simp [he]
      · split at h
        · exact absurd h (by simp)
        · simp only [Except.ok.injEq] at h
          subst h
          simp [he]

/-- `Reader.Next`: spin `nextChunk` until a new logical name is pending, then
promote it (reset the chunk counter to 0) and return it. -/
def readerNext (st : ReaderState) : Except RErr (List Char × ReaderState) :=
  if st.nextName ≠ [] then
    .ok (st.nextName, { st with name := st.nextName, nextName := [], number := 0 })
  else
    match h : nextChunk st with
    | .error e => .error e
    | .ok st1 => readerNext st1
termination_by st.entries.length
decreasing_by exact nextChunk_ok_entries h

/-- `tar.Reader.Read` against the current entry: at entry end it yields
`(0, io.EOF)`; otherwise up to `n` of the remaining bytes and no error. -/
def tarRead (st : ReaderState) (n : Nat) : List Nat × Option RErr × ReaderState :=
  if st.current.isEmpty then ([], some .eof, st)
  else (st.current.take n, none, { st with current := st.current.drop n })

/-- `Reader.Read` with a caller buffer of size `n`: returns the bytes read,
the error (`none` = Go's `nil`), and the next state. -/
def readerRead (st : ReaderState) (n : Nat) : List Nat × Option RErr × ReaderState :=
  if st.nextName ≠ [] ∨ st.name = [] then ([], some .eof, st)
  else if n = 0 then ([], none, st)
  else
    match tarRead st n with
    | (out, some .eof, st1) =>
      (match nextChunk st1 with
       | .error e2 => (out, some e2, st1)
       | .ok st2 =>
         if out.length = 0 ∧ st2.nextName = [] then tarRead st2 n
         else (out, none, st2))
    | r => r

/-- Drain the current logical file: call `Read` until it signals `io.EOF`,
concatenating everything it returns.  `none` = out of fuel or a reader
error. -/
def readEntryLoop (bs : Nat) (st : ReaderState) (acc : List Nat) :
    Nat → Option (List Nat × ReaderState)
  | 0 => none
  | fuel + 1 =>
    match readerRead st bs with
    | (out, some .eof, st1) => some (acc ++ out, st1)
    | (_, some _, _) => none
    | (out, none, st1) => readEntryLoop bs st1 (acc ++ out) fuel

/-- Consume a whole archive: `Next` then drain, repeatedly, until `Next`
reports `io.EOF`.  Yields the `(name, bytes)` sequence the reader presents. -/
def readAll (bs innerFuel : Nat) (st : ReaderState) :
    Nat → Option (List (List Char × List Nat))
  | 0 => none
  | fuel + 1 =>
    match readerNext st with
    | .error .eof => some []
    | .error _ => none
    | .ok (nm, st1) =>
      match readEntryLoop bs st1 [] innerFuel with
      | none => none
      | some (bytes, st2) => (readAll bs innerFuel st2 fuel).map ((nm, bytes) :: ·)

end Chunktar

namespace Mongorestore

/-!
## Tar restore driver (`src/mongorestore/chunktar.go`)

`RestoreTarDump` and `TarRestoreState`, embedded over the stream of logical
files as the chunk reader and `GetInfoFromTarHeaderName` present them: each
file arrives as its `(db, collection, fileType)` classification.  The external
collaborators (`RestoreBeginCollection`, `RestoreCollectionMetadata`,
`RestoreCollectionBSON`, `IndexesFromBSONReader`, `RestoreCollectionIndexes`,
`CreateIntentForFile`) and the name validators (`util.ValidateDBName`,
`util.ValidateCollectionGrammar`) are outside this package; they are
parameters (`Env`), given as pure functions returning Go-style
`(value, error)` pairs, and every collaborator invocation is recorded in a
trace so that call-counting claims can be stated.  A Go nil-pointer
dereference is rendered as the `none` outcome. -/

/-- Index specs are opaque payloads. -/
abbrev IndexDocument := Nat

/-- Collaborator errors are opaque. -/
abbrev CollabErr := Nat

/-- The only intent field the driver itself reads is `C` (the collection). -/
structure Intent where
  c : String
deriving DecidableEq

/-- `GetInfoFromTarHeaderName`'s classification of a logical file name. -/
inductive FileType where
  | unknownFile
  | bsonFile
  | metadataFile
deriving DecidableEq

/-- One logical file as the consumption loop sees it after classification. -/
structure TarFile where
  db : String
  coll : String
  ft : FileType
deriving DecidableEq

/-- The per-database `system.indexes` map (`map[string][]IndexDocument`,
`nil`-able); a missing key reads as Go's nil slice. -/
abbrev SysIdxMap := List (String × List IndexDocument)

def sysLookup (m : SysIdxMap) (c : String) : Option (List IndexDocument) :=
  (m.find? (fun p => p.1 == c)).map Prod.snd

/-- `strings.HasPrefix p s` on the character view (all names are ASCII, where
Go's byte-wise comparison agrees). -/
def goHasPfx (p s : String) : Bool := p.data.isPrefixOf s.data

/-- A collaborator call, as recorded in the trace. -/
inductive CallEvent where
  | beginColl (i : Intent)
  | metadata (i : Intent) (collExists : Bool)
  | bson (i : Intent)
  | indexesFromBSON (filter : String)
  | restoreIndexes (i : Option Intent) (specs : List IndexDocument)
deriving DecidableEq

/-- External collaborators and configuration, as `RestoreTarDump` consumes
them.  Functions return Go-style `(value, error-or-nil)`. -/
structure Env where
  validDb : String → Bool
  validColl : String → Bool
  createIntentForFile : String → String → FileType → Bool → Option Intent × Bool
  beginCollection : Intent → Bool × Option CollabErr
  collectionMetadata : Intent → Bool → List IndexDocument × Option CollabErr
  collectionBSON : Intent → Option CollabErr
  indexesFromBSON : String → Option SysIdxMap × Option CollabErr
  restoreIndexes : Option Intent → List IndexDocument → Option CollabErr
  noIndexRestore : Bool
  optionsDb : String
  optionsCollection : String

/-- `TarRestoreState`. -/
structure TarRestoreState where
  pastDbs : List String
  currentDb : String
  singleDb : Bool
  pastCollections : List String
  currentCollection : String
  singleCollection : Bool
  usesMetadataFiles : Bool
  restoredMetadata : Bool
  restoredBSON : Bool
  collectionExists : Bool
  metadataIndexes : List IndexDocument
  systemIndexes : Option SysIdxMap
  intent : Option Intent
deriving DecidableEq

/-- `MongoRestore.NewTarRestoreState`. -/
def newTarRestoreState (env : Env) : TarRestoreState :=
  { pastDbs := []
    currentDb := env.optionsDb
    singleDb := env.optionsDb ≠ ""
    pastCollections := []
    currentCollection := env.optionsCollection
    singleCollection := env.optionsCollection ≠ ""
    usesMetadataFiles := false
    restoredMetadata := false
    restoredBSON := false
    collectionExists := false
    metadataIndexes := []
    systemIndexes := none
    intent := none }

/-- `TarRestoreState.ChangeCollection`.  Returns `none` on the nil-pointer
fault (`state.Intent.C` with `state.Intent == nil`), otherwise the mutated
state, the collaborator calls made, and the returned error.  Note that on a
collaborator error Go returns before the flag resets, so the partially
mutated state is what a caller that ignores the error continues with. -/
def changeCollection (env : Env) (st : TarRestoreState) (collection : String) :
    Option (TarRestoreState × List CallEvent × Option CollabErr) :=
  let st := { st with
    pastCollections :=
      if st.currentCollection ≠ "" then st.pastCollections ++ [st.currentCollection]
      else st.pastCollections,
    currentCollection := collection,
    usesMetadataFiles := false }
  let finish (st : TarRestoreState) (ev : List CallEvent) :=
    some ({ st with
      restoredMetadata := false
      restoredBSON := false
      collectionExists := false
      metadataIndexes := [] }, ev, (none : Option CollabErr))
  if st.restoredMetadata then
    let e := env.restoreIndexes st.intent st.metadataIndexes
    let ev := [CallEvent.restoreIndexes st.intent st.metadataIndexes]
    match e with
    | some err => some (st, ev, some err)
    | none => finish st ev
  else
    match st.systemIndexes with
    | none => finish st []
    | some m =>
      match st.intent with
      | none => none
      | some it =>
        match sysLookup m it.c with
        | none => finish st []
        | some specs =>
          let e := env.restoreIndexes st.intent specs
          let ev := [CallEvent.restoreIndexes st.intent specs]
          match e with
          | some err => some (st, ev, some err)
          | none => finish st ev

/-- `TarRestoreState.ChangeDatabase`. -/
def changeDatabase (env : Env) (st : TarRestoreState) (db : String) :
    Option (TarRestoreState × List CallEvent × Option CollabErr) :=
  let st := { st with
    pastDbs := if st.currentDb ≠ "" then st.pastDbs ++ [st.currentDb] else st.pastDbs,
    currentDb := db,
    pastCollections := [],
    systemIndexes := none }
  changeCollection env st ""

/-- Lines 408-420: the database-transition step.  `.inr ()` is the
`continue` of `single_db` mode; `.inl none` a propagating fault; otherwise
the (possibly transitioned) state and the calls made — the error returned by
`state.ChangeDatabase(db)` is discarded, as at line 418 of the source. -/
def dbTransitionStep (env : Env) (st : TarRestoreState) (db : String) :
    Option (TarRestoreState × List CallEvent) ⊕ Unit :=
  if db ≠ st.currentDb then
    if st.singleDb then .inr ()
    else
      match changeDatabase env st db with
      | none => .inl none
      | some (st1, ev1, _ignoredErr) => .inl (some (st1, ev1))
  else .inl (some (st, []))

/-- Lines 422-433: the collection-transition step; symmetric to
`dbTransitionStep`, discarding `state.ChangeCollection(collection)`'s error
as at line 431 of the source. -/
def collTransitionStep (env : Env) (st : TarRestoreState) (coll : String)
    (isSystemCollection : Bool) :
    Option (TarRestoreState × List CallEvent) ⊕ Unit :=
  if coll ≠ st.currentCollection then
    if st.singleCollection ∧ ¬ isSystemCollection then .inr ()
    else
      match changeCollection env st coll with
      | none => .inl none
      | some (st1, ev1, _ignoredErr) => .inl (some (st1, ev1))
  else .inl (some (st, []))

/-- Lines 441-445: `state.Intent = restore.CreateIntentForFile(db, collection,
fileType, "-", -1, &state.UsesMetadataFiles)` — the intent pointer is stored
(nil or not) and the by-pointer flag updated. -/
def afterIntent (env : Env) (st : TarRestoreState) (f : TarFile) : TarRestoreState :=
  { st with
    usesMetadataFiles := (env.createIntentForFile f.db f.coll f.ft st.usesMetadataFiles).2,
    intent := (env.createIntentForFile f.db f.coll f.ft st.usesMetadataFiles).1 }

/-- Lines 447-452: `RestoreBeginCollection` when neither metadata nor BSON
has been applied yet and the collection is not a system collection.
`state.CollectionExists` is assigned even when the call errors.  The error
component is checked by the loop (`return err`). -/
def beginPhase (env : Env) (st : TarRestoreState) (it : Intent) (sys : Bool) :
    TarRestoreState × List CallEvent × Option CollabErr :=
  if ¬ st.restoredMetadata ∧ ¬ st.restoredBSON ∧ ¬ sys = true then
    ({ st with collectionExists := (env.beginCollection it).1 },
      [CallEvent.beginColl it], (env.beginCollection it).2)
  else (st, [], none)

/-- Lines 454-468: the dispatch on file type.  Only the metadata branch
checks its error; the errors of `IndexesFromBSONReader` and
`RestoreCollectionBSON` are assigned to `err` and then overwritten by the
loop's post-statement, so the error component here is `none` for those
branches. -/
def dispatchKind (env : Env) (st : TarRestoreState) (f : TarFile) (it : Intent)
    (sys : Bool) : TarRestoreState × List CallEvent × Option CollabErr :=
  if f.ft = FileType.metadataFile ∧ ¬ sys = true then
    match (env.collectionMetadata it st.collectionExists).2 with
    | some err =>
      ({ st with metadataIndexes := (env.collectionMetadata it st.collectionExists).1 },
        [CallEvent.metadata it st.collectionExists], some err)
    | none =>
      ({ { st with metadataIndexes := (env.collectionMetadata it st.collectionExists).1 }
          with restoredMetadata := true },
        [CallEvent.metadata it st.collectionExists], none)
  else if f.ft = FileType.bsonFile then
    if f.coll = "system.indexes" ∧ ¬ env.noIndexRestore then
      ({ st with systemIndexes := (env.indexesFromBSON env.optionsCollection).1 },
        [CallEvent.indexesFromBSON env.optionsCollection], none)
    else (st, [CallEvent.bson it], none)
  else (st, [], none)

/-- Lines 441-468 combined: intent construction, begin, dispatch.  A nil
intent skips the rest (lines 442-444). -/
def dispatchFile (env : Env) (st : TarRestoreState) (f : TarFile) (sys : Bool) :
    TarRestoreState × List CallEvent × Option CollabErr :=
  match (env.createIntentForFile f.db f.coll f.ft st.usesMetadataFiles).1 with
  | none => (afterIntent env st f, [], none)
  | some it =>
    match beginPhase env (afterIntent env st f) it sys with
    | (stB, evB, some e) => (stB, evB, some e)
    | (stB, evB, none) =>
      match dispatchKind env stB f it sys with
      | (stC, evC, r) => (stC, evB ++ evC, r)

/-- The body of `RestoreTarDump`'s consumption loop for one logical file
(lines 381-468).  Outcomes: `none` = nil-pointer fault (propagating panic);
`some (st, ev, some e)` = the loop `return err`s; `some (st, ev, none)` =
fall through to the next file. -/
def processFile (env : Env) (st : TarRestoreState) (f : TarFile) :
    Option (TarRestoreState × List CallEvent × Option CollabErr) :=
  if f.ft = FileType.unknownFile then some (st, [], none)
  else if ¬ env.validDb f.db then some (st, [], none)
  else if ¬ env.validColl f.coll then some (st, [], none)
  else
    let isSystemCollection := goHasPfx "system." f.coll
    match dbTransitionStep env st f.db with
    | .inr _ => some (st, [], none)
    | .inl none => none
    | .inl (some (st, ev0)) =>
      match collTransitionStep env st f.coll isSystemCollection with
      | .inr _ => some (st, ev0, none)
      | .inl none => none
      | .inl (some (st, ev1)) =>
        if st.restoredBSON ∧ f.ft = FileType.metadataFile then
          some (st, ev0 ++ ev1, none)
        else
          some ((dispatchFile env st f isSystemCollection).1,
            ev0 ++ ev1 ++ (dispatchFile env st f isSystemCollection).2.1,
            (dispatchFile env st f isSystemCollection).2.2)

/-- The consumption loop over the classified logical files. -/
def runFiles (env : Env) (st : TarRestoreState) :
    List TarFile → Option (TarRestoreState × List CallEvent × Option CollabErr)
  | [] => some (st, [], none)
  | f :: fs =>
    match processFile env st f with
    | none => none
    | some (st1, ev, some e) => some (st1, ev, some e)
    | some (st1, ev, none) =>
      match runFiles env st1 fs with
      | none => none
      | some (st2, ev2, r) => some (st2, ev ++ ev2, r)

/-- `RestoreTarDump` over an archive that yields `files` and then a clean
`io.EOF`: run the loop, then the final `state.ChangeCollection("")`, whose
error is the function's result.  `none` = nil-pointer fault. -/
def restoreTarDump (env : Env) (files : List TarFile) :
    Option (Option CollabErr × List CallEvent) :=
  match runFiles env (newTarRestoreState env) files with
  | none => none
  | some (_, ev, some e) => some (some e, ev)
  | some (st, ev, none) =>
    match changeCollection env st "" with
    | none => none
    | some (_, ev2, r) => some (r, ev ++ ev2)

/-- Count of `RestoreCollectionIndexes` calls in a trace. -/
def countRestoreIndexes (tr : List CallEvent) : Nat :=
  tr.countP (fun e => match e with | CallEvent.restoreIndexes _ _ => true | _ => false)

/-- Count of `RestoreCollectionMetadata` calls in a trace. -/
def countMetadata (tr : List CallEvent) : Nat :=
  tr.countP (fun e => match e with | CallEvent.metadata _ _ => true | _ => false)

/-! ### Concrete environments and archives used as test inputs -/

/-- A benign collaborator: every name validates, every intent is produced
(with `C` = the collection), no collaborator ever fails, and the
`system.indexes` BSON parses to one index spec for collection `orders`. -/
def benignEnv : Env :=
  { validDb := fun _ => true
    validColl := fun _ => true
    createIntentForFile := fun _ c _ fl => (some { c := c }, fl)
    beginCollection := fun _ => (false, none)
    collectionMetadata := fun _ _ => ([7], none)
    collectionBSON := fun _ => none
    indexesFromBSON := fun _ => (some [("orders", [3])], none)
    restoreIndexes := fun _ _ => none
    noIndexRestore := false
    optionsDb := ""
    optionsCollection := "" }

/-- `db1/system.indexes.bson` (carrying a spec for `orders`), `db1/orders.bson`,
then a database transition to `db2/x.bson`. -/
def dbTransitionFiles : List TarFile :=
  [{ db := "db1", coll := "system.indexes", ft := .bsonFile },
   { db := "db1", coll := "orders", ft := .bsonFile },
   { db := "db2", coll := "x", ft := .bsonFile }]

/-- Like `benignEnv` but `RestoreCollectionBSON` always fails with error 42. -/
def bsonErrEnv : Env := { benignEnv with collectionBSON := fun _ => some 42 }

/-- A single plain BSON file. -/
def oneBsonFile : List TarFile := [{ db := "db1", coll := "users", ft := .bsonFile }]

/-- A collection's BSON followed by its (late) metadata. -/
def lateMetadataFiles : List TarFile :=
  [{ db := "db1", coll := "users", ft := .bsonFile },
   { db := "db1", coll := "users", ft := .metadataFile }]

/-- Like `benignEnv`, but the `system.indexes` map carries an entry for a
collection that never transitions out while the map is consulted, and
`CreateIntentForFile` declines to produce an intent for collection `a`. -/
def nilIntentEnv : Env :=
  { benignEnv with
    indexesFromBSON := fun _ => (some [("zzz", [3])], none),
    createIntentForFile := fun _ c _ fl =>
      (if c = "a" then none else some { c := c }, fl) }

/-- `db1/system.indexes.bson`, then `db1/a.bson` (intent refused), then
`db1/b.bson` (collection transition consults `SystemIndexes` with
`state.Intent == nil`). -/
def nilIntentFiles : List TarFile :=
  [{ db := "db1", coll := "system.indexes", ft := .bsonFile },
   { db := "db1", coll := "a", ft := .bsonFile },
   { db := "db1", coll := "b", ft := .bsonFile }]

end Mongorestore



/-!
# Theorems

Everything below is proof: first the supporting lemmas, then one theorem per
claim (with witness / counterexample theorems where required).
-/

namespace Chunktar

/-! ## Chunk-name formatting and parsing lemmas -/

theorem digitChar_toNat {d : Nat} (h : d < 10) : (digitChar d).toNat = 48 + d := by
  interval_cases d <;> rfl

theorem isDigitCh_digitChar {d : Nat} (h : d < 10) : isDigitCh (digitChar d) = true := by
  interval_cases d <;> rfl

theorem natDigits_ne_nil (n : Nat) : natDigits n ≠ [] := by
  rw [natDigits]
  split <;> simp

theorem natDigits_all_digit (n : Nat) : (natDigits n).all isDigitCh = true := by
  induction n using Nat.strong_induction_on with
  | _ n ih =>
    rw [natDigits]
    split
    · rename_i h
      simp [isDigitCh_digitChar h]
    · rename_i h
      have := ih (n / 10) (Nat.div_lt_self (by omega) (by omega))
      simp only [List.all_append, this, Bool.true_and, List.all_cons, List.all_nil,
        Bool.and_true]
      exact isDigitCh_digitChar (Nat.mod_lt _ (by omega))

theorem natDigits_length_le {n d : Nat} (hd : 1 ≤ d) (h : n < 10 ^ d) :
    (natDigits n).length ≤ d := by
  induction d generalizing n with
  | zero => omega
  | succ d ih =>
    rw [natDigits]
    split
    · simpa using hd
    · rename_i hn
      have hd1 : 1 ≤ d := by
        by_contra hc
        have : d = 0 := by omega
        subst this
        simp [pow_succ] at h
        omega
      have hdiv : n / 10 < 10 ^ d := by
        rw [Nat.div_lt_iff_lt_mul (by omega)]
        calc n < 10 ^ (d + 1) := h
          _ = 10 ^ d * 10 := by ring
      have := ih hd1 hdiv
      simp only [List.length_append, List.length_cons, List.length_nil]
      omega

theorem foldl_digits_val (cs : List Char) (hall : cs.all isDigitCh = true) :
    ∀ a, cs.foldl (fun a c => a * 10 + (c.toNat - 48)) a
      = a * 10 ^ cs.length + digitsToNat cs := by
  induction cs with
  | nil => intro a; simp [digitsToNat]
  | cons c cs ih =>
    intro a
    simp only [List.all_cons, Bool.and_eq_true] at hall
    simp only [List.foldl_cons, List.length_cons, digitsToNat]
    rw [ih hall.2, ih hall.2 (0 * 10 + (c.toNat - 48))]
    ring

theorem digitsToNat_natDigits (n : Nat) : digitsToNat (natDigits n) = n := by
  induction n using Nat.strong_induction_on with
  | _ n ih =>
    rw [natDigits]
    split
    · rename_i h
      simp [digitsToNat, digitChar_toNat h]
    · rename_i h
      have ihd := ih (n / 10) (Nat.div_lt_self (by omega) (by omega))
      have hall := natDigits_all_digit (n / 10)
      simp only [digitsToNat, List.foldl_append, List.foldl_cons, List.foldl_nil]
      have hstep := foldl_digits_val (natDigits (n / 10)) hall 0
      simp only [digitsToNat] at hstep ihd
      rw [hstep]
      simp only [Nat.zero_mul, Nat.zero_add, ihd]
      rw [digitChar_toNat (Nat.mod_lt _ (by omega))]
      omega

theorem digitsToNat_pad12 {n : Nat} : digitsToNat (pad12 n) = n := by
  have hrep : ∀ m, (List.replicate m '0').foldl
      (fun a c => a * 10 + (c.toNat - 48)) 0 = 0 := by
    intro m
    induction m with
    | zero => rfl
    | succ m ihm => simpa [List.replicate_succ] using ihm
  simp only [pad12, digitsToNat, List.foldl_append, hrep]
  have := digitsToNat_natDigits n
  simpa [digitsToNat] using this

theorem pad12_length {n : Nat} (h : n < 10 ^ 12) : (pad12 n).length = 12 := by
  have := @natDigits_length_le n 12 (by omega) h
  simp only [pad12, List.length_append, List.length_replicate]
  omega

theorem pad12_all_digit (n : Nat) : (pad12 n).all isDigitCh = true := by
  simp only [pad12, List.all_append, Bool.and_eq_true]
  refine ⟨?_, natDigits_all_digit n⟩
  simp only [List.all_eq_true]
  intro c hc
  rw [List.eq_of_mem_replicate hc]
  rfl

/-- The reader's regex parse inverts the writer's chunk-name format, for a
non-empty logical name and a chunk number below `10 ^ 12`. -/
theorem parseChunkName_chunkEntryName {nm : List Char} {k : Nat}
    (hnm : nm ≠ []) (hk : k < 10 ^ 12) :
    parseChunkName (chunkEntryName nm k) = some (nm, k) := by
  have hlen : (chunkEntryName nm k).length = nm.length + 13 := by
    simp [chunkEntryName, pad12_length hk]
  have hnm1 : 1 ≤ nm.length := by
    cases nm with
    | nil => exact absurd rfl hnm
    | cons _ _ => simp
  have htk : (chunkEntryName nm k).length - 13 = nm.length := by omega
  have htake : (chunkEntryName nm k).take (nm.length) = nm := by
    simp [chunkEntryName, List.take_append_eq_append_take]
  have hdrop : (chunkEntryName nm k).drop (nm.length) = '.' :: pad12 k := by
    simp [chunkEntryName, List.drop_append_eq_append_drop]
  unfold parseChunkName
  rw [hlen, if_pos (by omega)]
  have h13 : nm.length + 13 - 13 = nm.length := by omega
  rw [h13, htake, hdrop]
  simp only [List.head?_cons, List.drop_one, List.tail_cons]
  rw [if_pos (by simp [pad12_all_digit])]
  simp [digitsToNat_pad12]

/-- A successful parse always returns a non-empty base (the regex group
`(.+)`). -/
theorem parseChunkName_base_ne_nil {nm base : List Char} {k : Nat}
    (h : parseChunkName nm = some (base, k)) : base ≠ [] := by
  unfold parseChunkName at h
  split at h
  · rename_i hlen
    split at h
    · simp only [Option.some.injEq, Prod.mk.injEq] at h
      obtain ⟨hb, _⟩ := h
      subst hb
      intro hnil
      have hl := congrArg List.length hnil
      simp only [List.length_take, List.length_nil] at hl
      omega
    · exact absurd h (by simp)
  · exact absurd h (by simp)

/-! ## Writer characterization -/

theorem bufferThreshold_pos : 0 < bufferThreshold := by decide

theorem bufferThreshold_lt_limit : bufferThreshold < bufferLimit := by decide

theorem chunksOf_append (nm : List Char) (a b : List (List Nat)) :
    ∀ s, chunksOf nm s (a ++ b) = chunksOf nm s a ++ chunksOf nm (s + a.length) b := by
  induction a with
  | nil => intro s; simp [chunksOf]
  | cons x xs ih =>
    intro s
    have h2 : s + 1 + xs.length = s + (xs.length + 1) := by omega
    calc chunksOf nm s ((x :: xs) ++ b)
        = (chunkEntryName nm s, x) :: chunksOf nm (s + 1) (xs ++ b) := rfl
      _ = (chunkEntryName nm s, x)
            :: (chunksOf nm (s + 1) xs ++ chunksOf nm (s + 1 + xs.length) b) := by
          rw [ih (s + 1)]
      _ = (chunkEntryName nm s, x)
            :: (chunksOf nm (s + 1) xs ++ chunksOf nm (s + (xs.length + 1)) b) := by
          rw [h2]
      _ = chunksOf nm s (x :: xs) ++ chunksOf nm (s + (x :: xs).length) b := by
          simp [chunksOf]

theorem writeSegs_nil (st : WriterState) : writeSegs st [] = st := by
  rw [writeSegs]
  rfl

theorem writeSegs_cons (st : WriterState) (bs : List Nat) (h : bs ≠ []) :
    writeSegs st bs
      = writeSegs { swapInOut st with inputBuffer := bs.take bufferLimit }
          (bs.drop bufferLimit) := by
  rw [writeSegs]
  rw [if_neg (by simp [h])]

theorem writeSegs_spec : ∀ (N : Nat) (bs : List Nat) (st : WriterState),
    bs.length ≤ N → bs ≠ [] →
    ∃ bodies buf,
      writeSegs st bs
          = ⟨st.name, st.chunkCount + bodies.length, buf,
              st.archive ++ chunksOf st.name st.chunkCount bodies, st.isOpen⟩
        ∧ bodies.flatten ++ buf = st.inputBuffer ++ bs
        ∧ bodies.head? = some st.inputBuffer
        ∧ (∀ x ∈ bodies.tail, x.length = bufferLimit)
        ∧ 0 < buf.length ∧ buf.length ≤ bufferLimit := by
  intro N
  induction N with
  | zero =>
    intro bs st hlen hne
    cases bs with
    | nil => exact absurd rfl hne
    | cons a l => simp at hlen
  | succ N ih =>
    intro bs st hlen hne
    have hbs0 : 0 < bs.length := List.length_pos_of_ne_nil hne
    rw [writeSegs_cons st bs hne]
    by_cases hd : bs.drop bufferLimit = []
    · have hble : bs.length ≤ bufferLimit := by
        have := List.drop_eq_nil_iff_le.mp hd
        omega
      have htk : bs.take bufferLimit = bs := List.take_of_length_le hble
      rw [hd, writeSegs_nil]
      refine ⟨[st.inputBuffer], bs, ?_, ?_, rfl, ?_, hbs0, hble⟩
      · simp [swapInOut, chunksOf, htk]
      · simp
      · simp
    · have hlim : bufferLimit < bs.length := by
        by_contra hc
        exact hd (List.drop_eq_nil_iff_le.mpr (by omega))
      have hlen' : (bs.drop bufferLimit).length ≤ N := by
        have hL : 0 < bufferLimit := by decide
        simp only [List.length_drop]
        omega
      obtain ⟨bodies', buf', heq, hflat, hhead, htail, hb0, hbL⟩ :=
        ih (bs.drop bufferLimit)
          { swapInOut st with inputBuffer := bs.take bufferLimit } hlen' hd
      refine ⟨st.inputBuffer :: bodies', buf', ?_, ?_, rfl, ?_, hb0, hbL⟩
      · rw [heq]
        simp only [swapInOut, chunksOf, List.length_cons]
        congr 1 <;> first | rfl | omega | simp [List.append_assoc]
      · simp only [List.flatten_cons, List.append_assoc, hflat]
        simp [List.take_append_drop]
      · intro x hx
        simp only [List.tail_cons] at hx
        cases bodies' with
        | nil => simp at hhead
        | cons b0 btl =>
          simp only [List.head?_cons, Option.some.injEq] at hhead
          rcases List.mem_cons.mp hx with h1 | h1
          · subst h1
            rw [hhead]
            simp only [List.length_take]
            omega
          · exact htail x h1

theorem writeBytes_spec (st : WriterState) (b : List Nat)
    (hbuf : st.inputBuffer.length ≤ bufferThreshold) :
    ∃ bodies buf,
      writeBytes st b
          = ⟨st.name, st.chunkCount + bodies.length, buf,
              st.archive ++ chunksOf st.name st.chunkCount bodies, st.isOpen⟩
        ∧ bodies.flatten ++ buf = st.inputBuffer ++ b
        ∧ (∀ x ∈ bodies, bufferThreshold < x.length ∧ x.length ≤ bufferLimit)
        ∧ buf.length ≤ bufferThreshold := by
  have hTL : bufferThreshold < bufferLimit := by decide
  by_cases hb : b = []
  · subst hb
    refine ⟨[], st.inputBuffer, ?_, by simp, by simp, hbuf⟩
    simp only [writeBytes, List.isEmpty_nil, if_true]
    rw [if_neg (by omega)]
    simp [chunksOf]
  · have hbne : b.isEmpty = false := by simp [hb]
    by_cases hd : b.drop (min b.length (bufferLimit - st.inputBuffer.length)) = []
    · -- the loop runs a single iteration: everything fits in the buffer
      have hble : b.length ≤ bufferLimit - st.inputBuffer.length := by
        rcases Nat.le_total b.length (bufferLimit - st.inputBuffer.length) with h | h
        · exact h
        · have hmin : min b.length (bufferLimit - st.inputBuffer.length)
              = bufferLimit - st.inputBuffer.length := by omega
          rw [hmin] at hd
          have := List.drop_eq_nil_iff_le.mp hd
          omega
      have hmin : min b.length (bufferLimit - st.inputBuffer.length) = b.length := by
        omega
      have htk : b.take (min b.length (bufferLimit - st.inputBuffer.length)) = b := by
        rw [hmin]
        exact List.take_length b
      simp only [writeBytes, hbne, Bool.false_eq_true, if_false, htk, hd, writeSegs_nil]
      by_cases hsw : bufferThreshold < st.inputBuffer.length + b.length
      · rw [if_pos (by simpa using hsw)]
        refine ⟨[st.inputBuffer ++ b], [], ?_, by simp, ?_, by simp⟩
        · simp [swapInOut, chunksOf]
        · intro x hx
          simp only [List.mem_singleton] at hx
          subst hx
          constructor
          · simpa using hsw
          · simp only [List.length_append]
            omega
      · rw [if_neg (by simpa using hsw)]
        refine ⟨[], st.inputBuffer ++ b, ?_, by simp, by simp, ?_⟩
        · simp [chunksOf]
        · simp only [List.length_append]
          omega
    · -- the loop swaps at least once
      have hlim : bufferLimit - st.inputBuffer.length < b.length := by
        by_contra hc
        have hmin : min b.length (bufferLimit - st.inputBuffer.length) = b.length := by
          omega
        rw [hmin, List.drop_length] at hd
        exact hd rfl
      have hmin : min b.length (bufferLimit - st.inputBuffer.length)
          = bufferLimit - st.inputBuffer.length := by omega
      set s0 := min b.length (bufferLimit - st.inputBuffer.length) with hs0
      have hlen1 : (st.inputBuffer ++ b.take s0).length = bufferLimit := by
        simp only [List.length_append, List.length_take]
        omega
      obtain ⟨bodies0, buf0, heq, hflat, hhead, htail, hb0, hbL⟩ :=
        writeSegs_spec (b.drop s0).length (b.drop s0)
          { st with inputBuffer := st.inputBuffer ++ b.take s0 } le_rfl hd
      have hall0 : ∀ x ∈ bodies0, bufferThreshold < x.length ∧ x.length ≤ bufferLimit := by
        intro x hx
        cases bodies0 with
        | nil => simp at hhead
        | cons b0 btl =>
          simp only [List.head?_cons, Option.some.injEq] at hhead
          rcases List.mem_cons.mp hx with h1 | h1
          · subst h1
            rw [hhead]
            simp only [hlen1]
            omega
          · have := htail x h1
            omega
      have hflat2 : bodies0.flatten ++ buf0 = st.inputBuffer ++ b := by
        rw [hflat]
        simp [List.append_assoc, List.take_append_drop]
      simp only [writeBytes, hbne, Bool.false_eq_true, if_false, ← hs0, heq]
      by_cases hsw : bufferThreshold < buf0.length
      · rw [if_pos hsw]
        refine ⟨bodies0 ++ [buf0], [], ?_, by simpa using hflat2, ?_, by simp⟩
        · simp only [swapInOut, List.length_append, List.length_cons, List.length_nil,
            chunksOf_append, chunksOf]
          congr 1 <;> first | rfl | omega | simp [List.append_assoc]
        · intro x hx
          rcases List.mem_append.mp hx with h1 | h1
          · exact hall0 x h1
          · simp only [List.mem_singleton] at h1
            subst h1
            exact ⟨hsw, hbL⟩
      · rw [if_neg hsw]
        exact ⟨bodies0, buf0, rfl, hflat2, hall0, by omega⟩

theorem flushBuffered_inputBuffer (st : WriterState) :
    (flushBuffered st).inputBuffer = [] := by
  unfold flushBuffered
  split
  · rfl
  · rename_i h
    cases he : st.inputBuffer with
    | nil => rfl
    | cons a l => rw [he] at h; simp at h

theorem flushBuffered_archive (st : WriterState) :
    (flushBuffered st).archive = st.archive
      ++ (if st.inputBuffer = [] then []
          else [(chunkEntryName st.name st.chunkCount, st.inputBuffer)]) := by
  unfold flushBuffered
  by_cases h : st.inputBuffer = []
  · rw [if_neg (by simp [h]), if_pos h]
    simp
  · rw [if_pos (by cases he : st.inputBuffer with
      | nil => exact absurd he h
      | cons a l => simp [he]), if_neg h]
    simp [swapInOut]

theorem flushBuffered_isOpen (st : WriterState) :
    (flushBuffered st).isOpen = st.isOpen := by
  unfold flushBuffered
  split <;> simp [swapInOut]

theorem runWOps_append (a b : List WOp) : ∀ st : WriterState,
    runWOps st (a ++ b) = (runWOps st a).bind (fun s => runWOps s b) := by
  induction a with
  | nil => intro st; simp [runWOps]
  | cons op ops ih =>
    intro st
    simp only [List.cons_append, runWOps]
    cases runWOp st op with
    | none => simp
    | some st1 => simp [ih st1]

/-- The effect of the `Write` calls of one logical file, from any reachable
mid-entry state: some chunks are emitted (all strictly larger than
`bufferThreshold` and at most `bufferLimit`), the rest stays buffered. -/
theorem runWrites_spec : ∀ (ws : List (List Nat)) (st : WriterState),
    st.isOpen = true → st.inputBuffer.length ≤ bufferThreshold →
    ∃ bodies buf,
      runWOps st (ws.map WOp.write)
          = some ⟨st.name, st.chunkCount + bodies.length, buf,
              st.archive ++ chunksOf st.name st.chunkCount bodies, st.isOpen⟩
        ∧ bodies.flatten ++ buf = st.inputBuffer ++ ws.flatten
        ∧ (∀ x ∈ bodies, bufferThreshold < x.length ∧ x.length ≤ bufferLimit)
        ∧ buf.length ≤ bufferThreshold := by
  intro ws
  induction ws with
  | nil =>
    intro st hopen hbuf
    refine ⟨[], st.inputBuffer, ?_, by simp, by simp, hbuf⟩
    simp [runWOps, chunksOf]
  | cons w ws ih =>
    intro st hopen hbuf
    obtain ⟨b1, buf1, heq1, hflat1, hsz1, hb1⟩ := writeBytes_spec st w hbuf
    have hstep : runWOp st (WOp.write w) = some (writeBytes st w) := by
      simp [runWOp, hopen]
    have hopen1 : (writeBytes st w).isOpen = true := by rw [heq1]; exact hopen
    have hbuf1 : (writeBytes st w).inputBuffer.length ≤ bufferThreshold := by
      rw [heq1]; exact hb1
    obtain ⟨b2, buf2, heq2, hflat2, hsz2, hb2⟩ := ih (writeBytes st w) hopen1 hbuf1
    rw [heq1] at heq2
    dsimp only at heq2
    refine ⟨b1 ++ b2, buf2, ?_, ?_, ?_, hb2⟩
    · simp only [List.map_cons, runWOps, hstep]
      rw [heq1, heq2]
      congr 1
      congr 1 <;> first
        | rfl
        | (simp only [List.length_append]; omega)
        | (rw [chunksOf_append]; simp [List.append_assoc])
    · rw [heq1] at hflat2
      simp only [List.flatten_append, List.flatten_cons, List.append_assoc]
      rw [hflat2, ← List.append_assoc, hflat1]
      simp
    · intro x hx
      rcases List.mem_append.mp hx with h1 | h1
      · exact hsz1 x h1
      · exact hsz2 x h1

/-- The effect of a whole producer run (per-file header + writes, final
Close) from any reachable state: the pending chunk of the state's current
entry is flushed, and each logical file contributes its chunk sequence,
numbered from zero, satisfying `EntryChunksOK`. -/
theorem runEntriesClose_spec :
    ∀ (specs : List (List Char × List (List Nat))) (st : WriterState),
    st.isOpen = true → st.inputBuffer.length ≤ bufferThreshold →
    ∃ st' outs,
      (runWOps st (pairsOps specs)).bind closeWriter = some st'
        ∧ st'.archive = (flushBuffered st).archive ++ archiveFor outs
        ∧ List.Forall₂ (fun s o => o.1 = s.1 ∧ EntryChunksOK s.2 o.2) specs outs := by
  intro specs
  induction specs with
  | nil =>
    intro st hopen hbuf
    refine ⟨{ flushBuffered st with isOpen := false }, [], ?_, ?_, List.Forall₂.nil⟩
    · simp [pairsOps, runWOps, closeWriter, hopen]
    · simp [archiveFor]
  | cons s rest ih =>
    obtain ⟨nm, ws⟩ := s
    intro st hopen hbuf
    have hops : pairsOps ((nm, ws) :: rest)
        = WOp.header nm :: (ws.map WOp.write ++ pairsOps rest) := by
      simp [pairsOps, entryOps]
    have hstep : runWOp st (WOp.header nm)
        = some { flushBuffered st with name := nm, chunkCount := 0 } := by
      simp [runWOp, hopen]
    set st1 : WriterState := { flushBuffered st with name := nm, chunkCount := 0 }
      with hst1
    have hopen1 : st1.isOpen = true := by
      rw [hst1]
      show (flushBuffered st).isOpen = true
      rw [flushBuffered_isOpen]
      exact hopen
    have hbuf1 : st1.inputBuffer.length ≤ bufferThreshold := by
      rw [hst1]
      show (flushBuffered st).inputBuffer.length ≤ bufferThreshold
      rw [flushBuffered_inputBuffer]
      simp
    obtain ⟨b1, buf1, heq1, hflat1, hsz1, hb1⟩ := runWrites_spec ws st1 hopen1 hbuf1
    set st2 : WriterState := ⟨st1.name, st1.chunkCount + b1.length, buf1,
      st1.archive ++ chunksOf st1.name st1.chunkCount b1, st1.isOpen⟩ with hst2
    have hopen2 : st2.isOpen = true := hopen1
    have hbuf2 : st2.inputBuffer.length ≤ bufferThreshold := hb1
    obtain ⟨st', outs, heq2, harch2, hfa2⟩ := ih st2 hopen2 hbuf2
    have hname1 : st1.name = nm := rfl
    have hcnt1 : st1.chunkCount = 0 := rfl
    have hib1 : st1.inputBuffer = [] := by
      rw [hst1]
      exact flushBuffered_inputBuffer st
    refine ⟨st', (nm, b1 ++ (if buf1 = [] then [] else [buf1])) :: outs, ?_, ?_, ?_⟩
    · rw [hops]
      simp only [runWOps, hstep]
      rw [runWOps_append]
      rw [heq1]
      simpa using heq2
    · rw [harch2]
      have hfl2 : (flushBuffered st2).archive
          = st1.archive ++ chunksOf nm 0 (b1 ++ (if buf1 = [] then [] else [buf1])) := by
        rw [flushBuffered_archive]
        rw [chunksOf_append]
        simp only [hst2, hname1, hcnt1]
        by_cases hbe : buf1 = []
        · simp [hbe, chunksOf]
        · simp [hbe, chunksOf]
      rw [hfl2]
      simp only [hst1]
      show (flushBuffered st).archive ++ chunksOf nm 0 _ ++ archiveFor outs
          = (flushBuffered st).archive ++ archiveFor ((nm, _) :: outs)
      simp [archiveFor, List.append_assoc]
    · refine List.Forall₂.cons ⟨rfl, ?_, ?_, ?_⟩ hfa2
      · -- bytes agree
        rw [hib1] at hflat1
        simp only [List.nil_append] at hflat1
        by_cases hbe : buf1 = []
        · simp only [hbe, if_pos, List.append_nil]
          rw [← hflat1, hbe]
          simp
        · rw [if_neg hbe]
          rw [← hflat1]
          simp
      · -- chunks non-empty and at most bufferLimit
        intro x hx
        rcases List.mem_append.mp hx with h1 | h1
        · obtain ⟨hgt, hle⟩ := hsz1 x h1
          have hT : 0 < bufferThreshold := by decide
          refine ⟨?_, hle⟩
          intro hnil
          rw [hnil] at hgt
          simp at hgt
        · by_cases hbe : buf1 = []
          · rw [if_pos hbe] at h1
            simp at h1
          · rw [if_neg hbe] at h1
            simp only [List.mem_singleton] at h1
            subst h1
            have hTL : bufferThreshold ≤ bufferLimit := by decide
            exact ⟨hbe, by omega⟩
      · -- all chunks but the last exceed bufferThreshold
        intro x hx
        by_cases hbe : buf1 = []
        · rw [if_pos hbe, List.append_nil] at hx
          have := List.dropLast_subset _ hx
          exact (hsz1 x this).1
        · rw [if_neg hbe] at hx
          rw [List.dropLast_concat] at hx
          exact (hsz1 x hx).1

/-- Top-level writer characterization: a fresh writer run over
`pairsOps specs` (header + writes per logical file, then Close) succeeds and
produces exactly the archive of per-file chunk sequences, numbered from 0,
with contents and sizes as in `EntryChunksOK`. -/
theorem runWriter_spec (specs : List (List Char × List (List Nat))) :
    ∃ st' outs,
      runWriter (pairsOps specs) = some st'
        ∧ st'.archive = archiveFor outs
        ∧ List.Forall₂ (fun s o => o.1 = s.1 ∧ EntryChunksOK s.2 o.2) specs outs := by
  obtain ⟨st', outs, heq, harch, hfa⟩ :=
    runEntriesClose_spec specs initWriter rfl (by simp [initWriter])
  refine ⟨st', outs, heq, ?_, hfa⟩
  rw [harch]
  simp [flushBuffered, initWriter]

theorem runWOps_header {st : WriterState} (hopen : st.isOpen = true)
    (nm : List Char) (ops : List WOp) :
    runWOps st (WOp.header nm :: ops)
      = runWOps { flushBuffered st with name := nm, chunkCount := 0 } ops := by
  simp [runWOps, runWOp, hopen]

theorem runWOps_write {st : WriterState} (hopen : st.isOpen = true)
    (b : List Nat) (ops : List WOp) :
    runWOps st (WOp.write b :: ops) = runWOps (writeBytes st b) ops := by
  simp [runWOps, runWOp, hopen]

theorem runWOps_flushOp {st : WriterState} (hopen : st.isOpen = true)
    (ops : List WOp) :
    runWOps st (WOp.flush :: ops) = runWOps (flushBuffered st) ops := by
  simp [runWOps, runWOp, hopen]

theorem runWOps_header_t (nm0 : List Char) (cc : Nat) (ib : List Nat)
    (ar : List TarEntry) (nm : List Char) (ops : List WOp) :
    runWOps ⟨nm0, cc, ib, ar, true⟩ (WOp.header nm :: ops)
      = runWOps { flushBuffered ⟨nm0, cc, ib, ar, true⟩ with
          name := nm, chunkCount := 0 } ops :=
  runWOps_header rfl nm ops

theorem runWOps_write_t (nm0 : List Char) (cc : Nat) (ib : List Nat)
    (ar : List TarEntry) (b : List Nat) (ops : List WOp) :
    runWOps ⟨nm0, cc, ib, ar, true⟩ (WOp.write b :: ops)
      = runWOps (writeBytes ⟨nm0, cc, ib, ar, true⟩ b) ops :=
  runWOps_write rfl b ops

theorem runWOps_flushOp_t (nm0 : List Char) (cc : Nat) (ib : List Nat)
    (ar : List TarEntry) (ops : List WOp) :
    runWOps ⟨nm0, cc, ib, ar, true⟩ (WOp.flush :: ops)
      = runWOps (flushBuffered ⟨nm0, cc, ib, ar, true⟩) ops :=
  runWOps_flushOp rfl ops

theorem forall₂_mem_right {α β : Type} {R : α → β → Prop} :
    ∀ {l1 : List α} {l2 : List β}, List.Forall₂ R l1 l2 →
      ∀ b ∈ l2, ∃ a ∈ l1, R a b := by
  intro l1 l2 h
  induction h with
  | nil => intro b hb; simp at hb
  | cons hr _ ih =>
    intro b hb
    rcases List.mem_cons.mp hb with h1 | h1
    · subst h1
      exact ⟨_, by simp, hr⟩
    · obtain ⟨a, ha, har⟩ := ih b h1
      exact ⟨a, by simp [ha], har⟩

/-- A `Write` whose bytes fit with the buffered bytes under `bufferThreshold`
just appends to the input buffer: no chunk is emitted. -/
theorem writeBytes_small {st : WriterState} {b : List Nat}
    (h : st.inputBuffer.length + b.length ≤ bufferThreshold) :
    writeBytes st b = { st with inputBuffer := st.inputBuffer ++ b } := by
  have hT : bufferThreshold < bufferLimit := by decide
  by_cases hb : b = []
  · subst hb
    simp only [writeBytes, List.isEmpty_nil, if_true]
    rw [if_neg (by omega)]
    simp
  · have hbne : b.isEmpty = false := by simp [hb]
    have hmin : min b.length (bufferLimit - st.inputBuffer.length) = b.length := by
      omega
    simp only [writeBytes, hbne, Bool.false_eq_true, if_false, hmin, List.take_length,
      List.drop_length, writeSegs_nil]
    rw [if_neg (by simp only [List.length_append]; omega)]

/-- A single `Write` that pushes the buffered bytes past `bufferThreshold`
while fitting under `bufferLimit` emits exactly one chunk holding buffer
plus payload, leaving the buffer empty. -/
theorem writeBytes_swap_all {st : WriterState} {b : List Nat} (hne : b ≠ [])
    (h1 : bufferThreshold < st.inputBuffer.length + b.length)
    (h2 : st.inputBuffer.length + b.length ≤ bufferLimit) :
    writeBytes st b
      = ⟨st.name, st.chunkCount + 1, [],
          st.archive ++ [(chunkEntryName st.name st.chunkCount, st.inputBuffer ++ b)],
          st.isOpen⟩ := by
  have hbne : b.isEmpty = false := by simp [hne]
  have hmin : min b.length (bufferLimit - st.inputBuffer.length) = b.length := by
    omega
  simp only [writeBytes, hbne, Bool.false_eq_true, if_false, hmin, List.take_length,
    List.drop_length, writeSegs_nil]
  rw [if_pos (by simp only [List.length_append]; omega)]
  simp [swapInOut]

/-- Writing a byte sequence one `Write([c])` at a time, while the total stays
under `bufferThreshold`, accumulates it in the buffer with no chunk
emitted — the same state a single small `Write` reaches. -/
theorem runWrites_singles_small : ∀ (bs : List Nat) (st : WriterState),
    st.isOpen = true → st.inputBuffer.length + bs.length ≤ bufferThreshold →
    runWOps st (bs.map (fun c => WOp.write [c]))
      = some { st with inputBuffer := st.inputBuffer ++ bs } := by
  intro bs
  induction bs with
  | nil =>
    intro st hopen hlen
    simp [runWOps]
  | cons c rest ih =>
    intro st hopen hlen
    have h1 : st.inputBuffer.length + [c].length ≤ bufferThreshold := by
      simp only [List.length_cons] at hlen
      simp only [List.length_singleton]
      omega
    have hstep : runWOp st (WOp.write [c]) = some (writeBytes st [c]) := by
      simp [runWOp, hopen]
    have hw : writeBytes st [c] = { st with inputBuffer := st.inputBuffer ++ [c] } :=
      writeBytes_small h1
    have hih := ih { st with inputBuffer := st.inputBuffer ++ [c] } hopen
      (by show (st.inputBuffer ++ [c]).length + rest.length ≤ bufferThreshold
          simp only [List.length_append, List.length_singleton]
          simp only [List.length_cons] at hlen
          omega)
    simp only [List.map_cons]
    rw [runWOps_write hopen, hw, hih]
    simp [List.append_assoc]

/-- The `Write` calls of one logical file whose total payload fits with the
buffered bytes under `bufferThreshold` just accumulate in the input buffer:
no chunk is emitted, whatever the split into calls. -/
theorem runWrites_small : ∀ (ws : List (List Nat)) (st : WriterState),
    st.isOpen = true → st.inputBuffer.length + ws.flatten.length ≤ bufferThreshold →
    runWOps st (ws.map WOp.write)
      = some { st with inputBuffer := st.inputBuffer ++ ws.flatten } := by
  intro ws
  induction ws with
  | nil =>
    intro st hopen hlen
    simp [runWOps]
  | cons b rest ih =>
    intro st hopen hlen
    simp only [List.flatten_cons, List.length_append] at hlen
    have h1 : st.inputBuffer.length + b.length ≤ bufferThreshold := by omega
    have hw : writeBytes st b = { st with inputBuffer := st.inputBuffer ++ b } :=
      writeBytes_small h1
    have hih := ih { st with inputBuffer := st.inputBuffer ++ b } hopen
      (by show (st.inputBuffer ++ b).length + rest.flatten.length ≤ bufferThreshold
          simp only [List.length_append]
          omega)
    simp only [List.map_cons]
    rw [runWOps_write hopen, hw, hih]
    simp [List.append_assoc]

/-- Chunking invariance of whole producer runs: two entry sequences with the
same names and the same per-entry total byte streams, every total at most
`bufferThreshold`, drive the writer through identical states whatever the
split into `Write` calls. -/
theorem runEntries_chunking : ∀ (specs1 specs2 : List (List Char × List (List Nat))),
    specs1.map (fun s => (s.1, s.2.flatten)) = specs2.map (fun s => (s.1, s.2.flatten)) →
    (∀ s ∈ specs1, s.2.flatten.length ≤ bufferThreshold) →
    ∀ st : WriterState, st.isOpen = true →
    runWOps st (pairsOps specs1) = runWOps st (pairsOps specs2) := by
  intro specs1
  induction specs1 with
  | nil =>
    intro specs2 hmap _ st _
    cases specs2 with
    | nil => rfl
    | cons a l => simp at hmap
  | cons s1 rest1 ih =>
    intro specs2 hmap hsize st hopen
    cases specs2 with
    | nil => simp at hmap
    | cons s2 rest2 =>
      simp only [List.map_cons, List.cons.injEq, Prod.mk.injEq] at hmap
      obtain ⟨⟨hnm, hfl⟩, hrest⟩ := hmap
      have hp1 : pairsOps (s1 :: rest1) = entryOps s1.1 s1.2 ++ pairsOps rest1 := by
        simp [pairsOps]
      have hp2 : pairsOps (s2 :: rest2) = entryOps s2.1 s2.2 ++ pairsOps rest2 := by
        simp [pairsOps]
      have hhead : ∀ (nm : List Char) (ws : List (List Nat)),
          ws.flatten.length ≤ bufferThreshold →
          runWOps st (entryOps nm ws)
            = some { { flushBuffered st with name := nm, chunkCount := 0 } with
                inputBuffer := [] ++ ws.flatten } := by
        intro nm ws hws
        rw [entryOps, runWOps_header hopen,
          runWrites_small ws { flushBuffered st with name := nm, chunkCount := 0 }
            (by simp [flushBuffered_isOpen, hopen])
            (by
              show (flushBuffered st).inputBuffer.length + ws.flatten.length
                  ≤ bufferThreshold
              rw [flushBuffered_inputBuffer]
              simpa using hws)]
        simp [flushBuffered_inputBuffer]
      have hs1 := hsize s1 (by simp)
      rw [hp1, hp2, runWOps_append, runWOps_append,
        hhead s1.1 s1.2 hs1, hhead s2.1 s2.2 (by rw [← hfl]; exact hs1),
        Option.some_bind, Option.some_bind, hnm, hfl]
      exact ih rest2 hrest (fun s hs => hsize s (by simp [hs]))
        { { flushBuffered st with name := s2.1, chunkCount := 0 } with
            inputBuffer := [] ++ s2.2.flatten }
        (by simp [flushBuffered_isOpen, hopen])

/-- C5 (amended): chunk-boundary invariance holds for whole producer runs —
`WriteHeader` then `Write`s per entry, final `Close`, no mid-entry `Flush` —
whenever each entry's total size stays within `bufferThreshold`: two entry
sequences with the same names and the same per-entry total byte streams
produce byte-identical archives, whatever the split into `Write` calls. -/
theorem c5_byte_identity (specs1 specs2 : List (List Char × List (List Nat)))
    (hmap : specs1.map (fun s => (s.1, s.2.flatten))
      = specs2.map (fun s => (s.1, s.2.flatten)))
    (hsize : ∀ s ∈ specs1, s.2.flatten.length ≤ bufferThreshold) :
    archiveOf (pairsOps specs1) = archiveOf (pairsOps specs2) := by
  rw [archiveOf, archiveOf, runWriter, runWriter,
    runEntries_chunking specs1 specs2 hmap hsize initWriter rfl]

/-- Witness for `c5_byte_identity` on two concrete two-entry runs that chunk
the same byte streams differently. -/
theorem c5_byte_identity_witness :
    archiveOf (pairsOps [(['a'], [[1], [2]]), (['b'], [[3, 4]])])
      = archiveOf (pairsOps [(['a'], [[1, 2]]), (['b'], [[3], [4]])]) :=
  c5_byte_identity [(['a'], [[1], [2]]), (['b'], [[3, 4]])]
    [(['a'], [[1, 2]]), (['b'], [[3], [4]])] (by decide) (by decide)

/-- C5, counterexample: the claim asserts byte-identical archives for one
Write of N bytes versus N Writes of one byte, with no explicit flushes.  At
N = bufferThreshold + 2 the single Write emits one chunk of N bytes, while
the byte-wise producer emits a chunk of bufferThreshold + 1 bytes (the swap
fires as the buffer first exceeds the threshold) and then a 1-byte chunk at
Close: the archives differ (1 entry versus 2). -/
theorem replicate_ne_nil_of_pos {n : Nat} (h : 0 < n) (a : Nat) :
    List.replicate n a ≠ [] := by
  intro hnil
  have hl := congrArg List.length hnil
  simp only [List.length_replicate, List.length_nil] at hl
  omega

theorem c5_counterexample_chunking_changes_archive :
    (archiveOf [WOp.header ['x'],
        WOp.write (List.replicate (bufferThreshold + 2) 9)]).map List.length = some 1
    ∧ (archiveOf (WOp.header ['x']
        :: (List.replicate (bufferThreshold + 2) (9 : Nat)).map
            (fun c => WOp.write [c]))).map List.length = some 2 := by
  have hT2 : (2 : Nat) ≤ bufferThreshold := by decide
  have hinit : ({ flushBuffered ⟨[], 0, [], [], true⟩ with name := ['x'], chunkCount := 0 }
      : WriterState) = ⟨['x'], 0, [], [], true⟩ := rfl
  have hi : runWOps initWriter = runWOps ⟨[], 0, [], [], true⟩ := rfl
  constructor
  · have hLeq : bufferLimit = bufferThreshold * 2 := rfl
    have hib : (⟨['x'], 0, [], [], true⟩ : WriterState).inputBuffer = [] := rfl
    have h1 : bufferThreshold
        < (⟨['x'], 0, [], [], true⟩ : WriterState).inputBuffer.length
          + (List.replicate (bufferThreshold + 2) (9 : Nat)).length := by
      rw [hib, List.length_nil, List.length_replicate]
      omega
    have h2 : (⟨['x'], 0, [], [], true⟩ : WriterState).inputBuffer.length
          + (List.replicate (bufferThreshold + 2) (9 : Nat)).length
        ≤ bufferLimit := by
      rw [hib, List.length_nil, List.length_replicate]
      omega
    have hne : List.replicate (bufferThreshold + 2) (9 : Nat) ≠ [] :=
      replicate_ne_nil_of_pos (by omega) 9
    have hone := @writeBytes_swap_all ⟨['x'], 0, [], [], true⟩
      (List.replicate (bufferThreshold + 2) 9) hne h1 h2
    simp only [List.nil_append, Nat.zero_add] at hone
    have e1 : runWOps initWriter [WOp.header ['x'],
        WOp.write (List.replicate (bufferThreshold + 2) 9)]
        = some (⟨['x'], 1, [],
            [(chunkEntryName ['x'] 0, List.replicate (bufferThreshold + 2) 9)],
            true⟩ : WriterState) := by
      rw [hi, runWOps_header_t, hinit, runWOps_write_t, hone, runWOps]
    simp only [archiveOf, runWriter, e1, Option.some_bind]
    simp [closeWriter, flushBuffered]
  · have hT2 : (2 : Nat) ≤ bufferThreshold := by decide
    have hinit : ({ flushBuffered ⟨[], 0, [], [], true⟩ with name := ['x'], chunkCount := 0 }
        : WriterState) = ⟨['x'], 0, [], [], true⟩ := rfl
    have hi : runWOps initWriter = runWOps ⟨[], 0, [], [], true⟩ := rfl
    have h29 : List.replicate 2 (9 : Nat) = [9, 9] := rfl
    have hsplit : List.replicate (bufferThreshold + 2) (9 : Nat)
        = List.replicate bufferThreshold 9 ++ [9, 9] := by
      rw [List.replicate_add, h29]
    have hib0 : (⟨['x'], 0, [], [], true⟩ : WriterState).inputBuffer = [] := rfl
    have hyp1 : (⟨['x'], 0, [], [], true⟩ : WriterState).inputBuffer.length
        + (List.replicate bufferThreshold (9 : Nat)).length ≤ bufferThreshold := by
      rw [hib0, List.length_nil, List.length_replicate]
      omega
    have hphase1 := runWrites_singles_small (List.replicate bufferThreshold 9)
      (⟨['x'], 0, [], [], true⟩ : WriterState) rfl hyp1
    simp only [List.nil_append] at hphase1
    have hLeq : bufferLimit = bufferThreshold * 2 := rfl
    have hib2 : (⟨['x'], 0, List.replicate bufferThreshold 9, [], true⟩
        : WriterState).inputBuffer = List.replicate bufferThreshold 9 := rfl
    have h1 : bufferThreshold
        < (⟨['x'], 0, List.replicate bufferThreshold 9, [], true⟩
            : WriterState).inputBuffer.length + ([9] : List Nat).length := by
      rw [hib2, List.length_replicate, List.length_singleton]
      omega
    have h2 : (⟨['x'], 0, List.replicate bufferThreshold 9, [], true⟩
          : WriterState).inputBuffer.length + ([9] : List Nat).length
        ≤ bufferLimit := by
      rw [hib2, List.length_replicate, List.length_singleton]
      omega
    have hne1 : ([9] : List Nat) ≠ [] := by simp
    have hphase2 := @writeBytes_swap_all
      ⟨['x'], 0, List.replicate bufferThreshold 9, [], true⟩ [9] hne1 h1 h2
    simp only [List.nil_append, Nat.zero_add] at hphase2
    have h3 : (([] : List Nat)).length + ([9] : List Nat).length ≤ bufferThreshold := by
      rw [List.length_nil, List.length_singleton]
      omega
    have hphase3 : writeBytes (⟨['x'], 1, [9],
        [(chunkEntryName ['x'] 0, List.replicate bufferThreshold 9 ++ [9])],
        true⟩ : WriterState) [9]
        = ⟨['x'], 1, [9, 9],
            [(chunkEntryName ['x'] 0, List.replicate bufferThreshold 9 ++ [9])], true⟩ := by
      rw [writeBytes_small (by simp only [List.length_singleton]; omega)]
      rfl
    have hphase2b : writeBytes (⟨['x'], 0, List.replicate bufferThreshold 9, [], true⟩
        : WriterState) [9]
        = ⟨['x'], 1, [],
            [(chunkEntryName ['x'] 0, List.replicate bufferThreshold 9 ++ [9])], true⟩ :=
      hphase2
    have hphase3b : writeBytes (⟨['x'], 1, [],
        [(chunkEntryName ['x'] 0, List.replicate bufferThreshold 9 ++ [9])],
        true⟩ : WriterState) [9]
        = ⟨['x'], 1, [9],
            [(chunkEntryName ['x'] 0, List.replicate bufferThreshold 9 ++ [9])], true⟩ := by
      rw [writeBytes_small (by simp only [List.length_nil, List.length_singleton]; omega)]
      rfl
    have e2X : runWOps (⟨['x'], 0, List.replicate bufferThreshold 9, [], true⟩ : WriterState)
        [WOp.write [9], WOp.write [9]]
        = some (⟨['x'], 1, [9],
            [(chunkEntryName ['x'] 0, List.replicate bufferThreshold 9 ++ [9])],
            true⟩ : WriterState) := by
      rw [runWOps_write_t, hphase2b, runWOps_write_t, hphase3b, runWOps]
    have e2Y : runWOps initWriter (WOp.header ['x']
        :: (List.replicate (bufferThreshold + 2) (9 : Nat)).map (fun c => WOp.write [c]))
        = (runWOps (⟨['x'], 0, [], [], true⟩ : WriterState)
              ((List.replicate bufferThreshold (9 : Nat)).map (fun c => WOp.write [c]))).bind
            (fun s => runWOps s [WOp.write [9], WOp.write [9]]) := by
      rw [hsplit]
      simp only [List.map_append, List.map_cons, List.map_nil]
      rw [hi, runWOps_header_t, hinit, runWOps_append]
    have e2 : runWOps initWriter (WOp.header ['x']
        :: (List.replicate (bufferThreshold + 2) (9 : Nat)).map (fun c => WOp.write [c]))
        = some (⟨['x'], 1, [9],
            [(chunkEntryName ['x'] 0, List.replicate bufferThreshold 9 ++ [9])],
            true⟩ : WriterState) := by
      rw [e2Y, hphase1, Option.some_bind, e2X]
    have e3 : closeWriter (⟨['x'], 1, [9],
        [(chunkEntryName ['x'] 0, List.replicate bufferThreshold 9 ++ [9])],
        true⟩ : WriterState)
        = some (⟨['x'], 2, [],
            [(chunkEntryName ['x'] 0, List.replicate bufferThreshold 9 ++ [9]),
             (chunkEntryName ['x'] 1, [9])], false⟩ : WriterState) := rfl
    rw [archiveOf, runWriter, e2, Option.some_bind, e3]
    rfl

/-- C6, counterexample: an entry opened with `WriteHeader` and closed with
zero bytes written is represented by NO tar entry at all — `Flush` only swaps
when the buffer is non-empty — not by a zero-size chunk with index 0 as the
claim states. -/
theorem c6_counterexample_empty_entry_vanishes :
    archiveOf [WOp.header ['a']] = some []
    ∧ ([] : List TarEntry) ≠ [(chunkEntryName ['a'] 0, ([] : List Nat))] := by
  constructor
  · decide
  · decide

/-- C6 (amended): an entry with zero bytes written contributes no chunk
entry; an entry with at least one byte written contributes at least one
chunk, the first carrying index 0 (and the chunks concatenate to the entry's
bytes). -/
theorem c6_nonempty_entry_has_first_chunk (nm : List Char) (b : List Nat) :
    (b = [] → archiveOf (pairsOps [(nm, [b])]) = some [])
    ∧ (b ≠ [] → ∃ bodies, archiveOf (pairsOps [(nm, [b])]) = some (chunksOf nm 0 bodies)
        ∧ bodies ≠ [] ∧ bodies.flatten = b) := by
  obtain ⟨st', outs, heq, harch, hfa⟩ := runWriter_spec [(nm, [b])]
  cases hfa with
  | cons hrel hnil =>
    cases hnil
    rename_i o
    obtain ⟨hname, hflat, hmem, _⟩ := hrel
    have harchive : archiveOf (pairsOps [(nm, [b])]) = some (chunksOf nm 0 o.2) := by
      unfold archiveOf
      rw [heq]
      show some st'.archive = _
      rw [harch]
      have hn2 : o.1 = nm := hname
      simp [archiveFor, hn2]
    have hflat1 : o.2.flatten = b := by simpa using hflat
    constructor
    · intro hb
      subst hb
      have hbodies : o.2 = [] := by
        cases ho : o.2 with
        | nil => rfl
        | cons x xs =>
          rw [ho] at hflat1
          simp only [List.flatten_cons] at hflat1
          have hx := (List.append_eq_nil.mp hflat1).1
          have := hmem x (by rw [ho]; simp)
          exact absurd hx this.1
      rw [harchive, hbodies]
      simp [chunksOf]
    · intro hb
      refine ⟨o.2, harchive, ?_, hflat1⟩
      intro ho
      rw [ho] at hflat1
      simp only [List.flatten_nil] at hflat1
      exact hb hflat1.symm

/-- Witness for `c6_nonempty_entry_has_first_chunk` at a concrete entry. -/
theorem c6_nonempty_entry_has_first_chunk_witness :
    ∃ bodies, archiveOf (pairsOps [(['a'], [[1]])]) = some (chunksOf ['a'] 0 bodies)
      ∧ bodies ≠ [] ∧ bodies.flatten = [1] :=
  (c6_nonempty_entry_has_first_chunk ['a'] [1]).2 (by decide)

/-- C8, counterexample: the claim quantifies over every sequence of Writer
operations, but an explicit mid-entry `Flush` cuts a chunk of whatever is
buffered: here chunk index 0 of the entry has 3 bytes ≤ `bufferThreshold`,
yet it is not the entry's last chunk (a threshold-crossing Write follows). -/
theorem c8_counterexample_flush_small_chunk :
    archiveOf [WOp.header ['x'], WOp.write [9, 9, 9], WOp.flush,
        WOp.write (List.replicate (bufferThreshold + 1) 9)]
      = some [(chunkEntryName ['x'] 0, [9, 9, 9]),
          (chunkEntryName ['x'] 1, List.replicate (bufferThreshold + 1) 9)]
    ∧ (3 : Nat) ≤ bufferThreshold := by
  have hT2 : (2 : Nat) ≤ bufferThreshold := by decide
  have hinit : ({ flushBuffered ⟨[], 0, [], [], true⟩ with name := ['x'], chunkCount := 0 }
      : WriterState) = ⟨['x'], 0, [], [], true⟩ := rfl
  have hi : runWOps initWriter = runWOps ⟨[], 0, [], [], true⟩ := rfl
  have hw1 : writeBytes (⟨['x'], 0, [], [], true⟩ : WriterState) [9, 9, 9]
      = ⟨['x'], 0, [9, 9, 9], [], true⟩ := by
    rw [writeBytes_small (by decide)]
    rfl
  have hfl : flushBuffered (⟨['x'], 0, [9, 9, 9], [], true⟩ : WriterState)
      = ⟨['x'], 1, [], [(chunkEntryName ['x'] 0, [9, 9, 9])], true⟩ := by
    simp [flushBuffered, swapInOut]
  have hLeq : bufferLimit = bufferThreshold * 2 := rfl
  have hib8 : (⟨['x'], 1, [], [(chunkEntryName ['x'] 0, [9, 9, 9])], true⟩
      : WriterState).inputBuffer = [] := rfl
  have h1 : bufferThreshold
      < (⟨['x'], 1, [], [(chunkEntryName ['x'] 0, [9, 9, 9])], true⟩
          : WriterState).inputBuffer.length
        + (List.replicate (bufferThreshold + 1) (9 : Nat)).length := by
    rw [hib8, List.length_nil, List.length_replicate]
    omega
  have h2 : (⟨['x'], 1, [], [(chunkEntryName ['x'] 0, [9, 9, 9])], true⟩
        : WriterState).inputBuffer.length
        + (List.replicate (bufferThreshold + 1) (9 : Nat)).length
      ≤ bufferLimit := by
    rw [hib8, List.length_nil, List.length_replicate]
    omega
  have hne : List.replicate (bufferThreshold + 1) (9 : Nat) ≠ [] :=
    replicate_ne_nil_of_pos (by omega) 9
  have hw2 := @writeBytes_swap_all
    ⟨['x'], 1, [], [(chunkEntryName ['x'] 0, [9, 9, 9])], true⟩
    (List.replicate (bufferThreshold + 1) 9) hne h1 h2
  simp only [List.nil_append] at hw2
  have e1 : runWOps initWriter [WOp.header ['x'], WOp.write [9, 9, 9], WOp.flush,
      WOp.write (List.replicate (bufferThreshold + 1) 9)]
      = some (⟨['x'], 2, [],
          [(chunkEntryName ['x'] 0, [9, 9, 9]),
            (chunkEntryName ['x'] 1, List.replicate (bufferThreshold + 1) 9)],
          true⟩ : WriterState) := by
    rw [hi, runWOps_header_t, hinit, runWOps_write_t, hw1, runWOps_flushOp_t,
      hfl, runWOps_write_t, hw2, runWOps]
    rfl
  refine ⟨?_, by decide⟩
  simp only [archiveOf, runWriter, e1, Option.some_bind]
  simp [closeWriter, flushBuffered]

/-- A chunk entry of `chunksOf` carries one of the given bodies. -/
theorem mem_chunksOf : ∀ {bodies : List (List Nat)} {nm : List Char} {k : Nat}
    {e : TarEntry}, e ∈ chunksOf nm k bodies → e.2 ∈ bodies := by
  intro bodies
  induction bodies with
  | nil => intro nm k e he; simp [chunksOf] at he
  | cons b bs ih =>
    intro nm k e he
    simp only [chunksOf, List.mem_cons] at he
    rcases he with h1 | h1
    · subst h1; simp
    · exact List.mem_cons_of_mem _ (ih h1)

/-- `Flush`/`Close`'s swap preserves both chunk-size invariants: it empties
the buffer and any chunk it emits is the buffer, of size at most
`bufferThreshold ≤ bufferLimit`. -/
theorem flushBuffered_bound {st : WriterState}
    (hbuf : st.inputBuffer.length ≤ bufferThreshold)
    (harch : ∀ e ∈ st.archive, e.2.length ≤ bufferLimit) :
    (flushBuffered st).inputBuffer.length ≤ bufferThreshold
      ∧ ∀ e ∈ (flushBuffered st).archive, e.2.length ≤ bufferLimit := by
  have hTL : bufferThreshold ≤ bufferLimit := by decide
  refine ⟨by rw [flushBuffered_inputBuffer]; simp, ?_⟩
  rw [flushBuffered_archive]
  intro e he
  rcases List.mem_append.mp he with h1 | h1
  · exact harch e h1
  · split at h1
    · simp at h1
    · simp only [List.mem_singleton] at h1
      subst h1
      show st.inputBuffer.length ≤ bufferLimit
      omega

/-- Every single API call preserves the chunk-size invariants: buffer at most
`bufferThreshold`, every emitted chunk body at most `bufferLimit`. -/
theorem runWOp_bound {st st1 : WriterState} {op : WOp}
    (h : runWOp st op = some st1)
    (hbuf : st.inputBuffer.length ≤ bufferThreshold)
    (harch : ∀ e ∈ st.archive, e.2.length ≤ bufferLimit) :
    st1.inputBuffer.length ≤ bufferThreshold
      ∧ ∀ e ∈ st1.archive, e.2.length ≤ bufferLimit := by
  unfold runWOp at h
  split at h
  · simp only [Option.some.injEq] at h
    subst h
    cases op with
    | header nm =>
      have hf := flushBuffered_bound hbuf harch
      exact ⟨hf.1, hf.2⟩
    | write b =>
      dsimp only
      obtain ⟨bodies, buf, heq, hflat, hbound, hbuf1⟩ := writeBytes_spec st b hbuf
      rw [heq]
      refine ⟨hbuf1, ?_⟩
      intro e he
      rcases List.mem_append.mp he with h1 | h1
      · exact harch e h1
      · exact (hbound e.2 (mem_chunksOf h1)).2
    | flush => exact flushBuffered_bound hbuf harch
  · exact absurd h (by simp)

/-- The chunk-size invariants hold along every run of Writer operations. -/
theorem runWOps_bound : ∀ (ops : List WOp) (st : WriterState),
    st.inputBuffer.length ≤ bufferThreshold →
    (∀ e ∈ st.archive, e.2.length ≤ bufferLimit) →
    ∀ st', runWOps st ops = some st' →
      st'.inputBuffer.length ≤ bufferThreshold
        ∧ ∀ e ∈ st'.archive, e.2.length ≤ bufferLimit := by
  intro ops
  induction ops with
  | nil =>
    intro st hbuf harch st' h
    simp only [runWOps, Option.some.injEq] at h
    subst h
    exact ⟨hbuf, harch⟩
  | cons op ops ih =>
    intro st hbuf harch st' h
    simp only [runWOps] at h
    cases hop : runWOp st op with
    | none => rw [hop] at h; exact absurd h (by simp)
    | some st1 =>
      rw [hop] at h
      have h1 := runWOp_bound hop hbuf harch
      exact ih st1 h1.1 h1.2 st' h

/-- C8 (amended): for every sequence of Writer operations — `WriteHeader`s,
`Write`s and mid-entry `Flush`es included — no chunk body in the closed
archive exceeds `bufferLimit`; and for producer runs with no mid-entry
`Flush` (each logical file is `WriteHeader` followed by `Write`s, with the
final `Close`), additionally every chunk body except possibly the last of
each logical file exceeds `bufferThreshold`. -/
theorem c8_threshold_law (ops : List WOp)
    (specs : List (List Char × List (List Nat))) :
    (∀ st', runWriter ops = some st' → ∀ e ∈ st'.archive, e.2.length ≤ bufferLimit)
      ∧ ∃ st' outs,
          runWriter (pairsOps specs) = some st'
            ∧ st'.archive = archiveFor outs
            ∧ ∀ o ∈ outs, (∀ x ∈ o.2, x.length ≤ bufferLimit)
                ∧ (∀ x ∈ o.2.dropLast, bufferThreshold < x.length) := by
  constructor
  · intro st' h
    rw [runWriter] at h
    cases hrun : runWOps initWriter ops with
    | none => rw [hrun] at h; exact absurd h (by simp)
    | some stM =>
      rw [hrun, Option.some_bind, closeWriter] at h
      have hM := runWOps_bound ops initWriter (by simp [initWriter])
        (by simp [initWriter]) stM hrun
      split at h
      · simp only [Option.some.injEq] at h
        subst h
        exact (flushBuffered_bound hM.1 hM.2).2
      · exact absurd h (by simp)
  · obtain ⟨st', outs, heq, harch, hfa⟩ := runWriter_spec specs
    refine ⟨st', outs, heq, harch, ?_⟩
    intro o ho
    obtain ⟨s, _, hrel⟩ := forall₂_mem_right hfa o ho
    obtain ⟨_, _, hsz, hlast⟩ := hrel
    exact ⟨fun x hx => (hsz x hx).2, hlast⟩

/-- Witness for `c8_threshold_law`: a concrete run with a mid-entry `Flush`
(whose emitted 2-byte chunk the bound covers) and a concrete flush-free
producer run. -/
theorem c8_threshold_law_witness :
    ∀ e ∈ (⟨['x'], 1, [], [(chunkEntryName ['x'] 0, [1, 2])],
        false⟩ : WriterState).archive,
      e.2.length ≤ bufferLimit := by
  have hinit : ({ flushBuffered ⟨[], 0, [], [], true⟩ with name := ['x'], chunkCount := 0 } : WriterState) = ⟨['x'], 0, [], [], true⟩ := rfl
  have hi : runWOps initWriter = runWOps ⟨[], 0, [], [], true⟩ := rfl
  have hw : writeBytes ⟨['x'], 0, [], [], true⟩ [1, 2]
      = ⟨['x'], 0, [1, 2], [], true⟩ := by
    rw [writeBytes_small (by decide)]
    rfl
  have hf : flushBuffered ⟨['x'], 0, [1, 2], [], true⟩
      = ⟨['x'], 1, [], [(chunkEntryName ['x'] 0, [1, 2])], true⟩ := rfl
  have hrun : runWriter [WOp.header ['x'], WOp.write [1, 2], WOp.flush]
      = some ⟨['x'], 1, [], [(chunkEntryName ['x'] 0, [1, 2])], false⟩ := by
    rw [runWriter, hi, runWOps_header_t, hinit, runWOps_write_t, hw,
      runWOps_flushOp_t, hf, runWOps]
    rfl
  exact (c8_threshold_law [WOp.header ['x'], WOp.write [1, 2], WOp.flush]
    [(['a'], [[1, 2]])]).1
    ⟨['x'], 1, [], [(chunkEntryName ['x'] 0, [1, 2])], false⟩ hrun

/-- C7: whenever the next tar entry's name matches the chunk regex with base
`base` and index `k`, `nextChunk` fails with chunks-out-of-order unless
`k = number + 1` when `base` equals the current logical name, fails with
missing-first-chunk unless `k = 0` when `base` names a new logical file, and
on success in the new-file case queues `base` as the pending name, which the
next `Next` call promotes. -/
theorem c7_chunk_validation (st : ReaderState) (nm : List Char) (body : List Nat)
    (rest : List TarEntry) (base : List Char) (k : Nat)
    (he : st.entries = (nm, body) :: rest)
    (hp : parseChunkName nm = some (base, k)) :
    (base = st.name →
      (k ≠ st.number + 1 → nextChunk st = .error .chunkOrder)
        ∧ (k = st.number + 1 →
            nextChunk st = .ok ⟨rest, body, st.name, k, st.nextName⟩))
    ∧ (base ≠ st.name →
      (k ≠ 0 → nextChunk st = .error .missingFirst)
        ∧ (k = 0 →
            nextChunk st = .ok ⟨rest, body, [], st.number, base⟩
              ∧ readerNext (⟨rest, body, [], st.number, base⟩ : ReaderState)
                = .ok (base, ⟨rest, body, base, 0, []⟩))) := by
  obtain ⟨ents, cur, snm, snum, snext⟩ := st
  simp only at he ⊢
  subst he
  have hb := parseChunkName_base_ne_nil hp
  constructor
  · intro hbase
    subst hbase
    refine ⟨fun hk => ?_, fun hk => ?_⟩
    · simp only [nextChunk, hp, if_true]
      rw [if_pos hk]
    · simp only [nextChunk, hp, if_true]
      rw [if_neg (by omega : ¬k ≠ snum + 1)]
  · intro hbase
    refine ⟨fun hk => ?_, fun hk => ?_⟩
    · simp only [nextChunk, hp]
      rw [if_neg hbase, if_pos hk]
    · subst hk
      refine ⟨by simp only [nextChunk, hp]; rw [if_neg hbase, if_neg (by simp)], ?_⟩
      rw [readerNext]
      simp only [if_pos hb]

/-- Witness for `c7_chunk_validation`: the entry `ab.000000000005` against a
reader positioned at logical name `ab`, chunk number 4. -/
theorem c7_chunk_validation_witness :
    (['a', 'b'] = (⟨[(['a', 'b', '.', '0', '0', '0', '0', '0', '0', '0', '0', '0', '0', '0',
          '5'], [7])], [], ['a', 'b'], 4, []⟩ : ReaderState).name →
      (5 ≠ (⟨[(['a', 'b', '.', '0', '0', '0', '0', '0', '0', '0', '0', '0', '0', '0',
            '5'], [7])], [], ['a', 'b'], 4, []⟩ : ReaderState).number + 1 →
          nextChunk ⟨[(['a', 'b', '.', '0', '0', '0', '0', '0', '0', '0', '0', '0', '0', '0',
            '5'], [7])], [], ['a', 'b'], 4, []⟩ = .error .chunkOrder)
        ∧ (5 = (⟨[(['a', 'b', '.', '0', '0', '0', '0', '0', '0', '0', '0', '0', '0', '0',
            '5'], [7])], [], ['a', 'b'], 4, []⟩ : ReaderState).number + 1 →
            nextChunk ⟨[(['a', 'b', '.', '0', '0', '0', '0', '0', '0', '0', '0', '0', '0', '0',
              '5'], [7])], [], ['a', 'b'], 4, []⟩
              = .ok ⟨[], [7],
                  (⟨[(['a', 'b', '.', '0', '0', '0', '0', '0', '0', '0', '0', '0', '0', '0',
                    '5'], [7])], [], ['a', 'b'], 4, []⟩ : ReaderState).name, 5,
                  (⟨[(['a', 'b', '.', '0', '0', '0', '0', '0', '0', '0', '0', '0', '0', '0',
                    '5'], [7])], [], ['a', 'b'], 4, []⟩ : ReaderState).nextName⟩))
    ∧ (['a', 'b'] ≠ (⟨[(['a', 'b', '.', '0', '0', '0', '0', '0', '0', '0', '0', '0', '0', '0',
          '5'], [7])], [], ['a', 'b'], 4, []⟩ : ReaderState).name →
      (5 ≠ 0 →
          nextChunk ⟨[(['a', 'b', '.', '0', '0', '0', '0', '0', '0', '0', '0', '0', '0', '0',
            '5'], [7])], [], ['a', 'b'], 4, []⟩ = .error .missingFirst)
        ∧ (5 = 0 →
            nextChunk ⟨[(['a', 'b', '.', '0', '0', '0', '0', '0', '0', '0', '0', '0', '0', '0',
              '5'], [7])], [], ['a', 'b'], 4, []⟩
              = .ok ⟨[], [7], [],
                  (⟨[(['a', 'b', '.', '0', '0', '0', '0', '0', '0', '0', '0', '0', '0', '0',
                    '5'], [7])], [], ['a', 'b'], 4, []⟩ : ReaderState).number, ['a', 'b']⟩
              ∧ readerNext (⟨[], [7], [],
                  (⟨[(['a', 'b', '.', '0', '0', '0', '0', '0', '0', '0', '0', '0', '0', '0',
                    '5'], [7])], [], ['a', 'b'], 4, []⟩ : ReaderState).number,
                  ['a', 'b']⟩ : ReaderState)
                = .ok (['a', 'b'], ⟨[], [7], ['a', 'b'], 0, []⟩))) :=
  c7_chunk_validation
    ⟨[(['a', 'b', '.', '0', '0', '0', '0', '0', '0', '0', '0', '0', '0', '0', '5'], [7])],
      [], ['a', 'b'], 4, []⟩
    ['a', 'b', '.', '0', '0', '0', '0', '0', '0', '0', '0', '0', '0', '0', '5'] [7] [] ['a', 'b']
    5 rfl (by decide)

/-- C9, counterexample: with logical file `a` exhausted (empty current chunk,
no pending name) and the next tar entry opening a new logical file `b`, the
claim says `Read` returns zero bytes with the end-of-entry signal; instead the
code's first such `Read` returns `(0, nil)` — no signal — while consuming
file `b`'s first chunk from the tar stream into the reader state. -/
theorem c9_counterexample_boundary_read_returns_nil :
    readerRead ⟨[(['b', '.', '0', '0', '0', '0', '0', '0', '0', '0', '0', '0', '0', '0'],
        [2])], [], ['a'], 0, []⟩ 1
      = ([], none, ⟨[], [2], [], 0, ['b']⟩) := by
  decide

/-- C9 (amended): `Read` never returns bytes of a logical file other than the
current one.  When the current file is exhausted and the next chunk opens a
new logical file, `Read` returns zero bytes with a `nil` error while queuing
the new name (the new file's bytes are held, not returned); every subsequent
`Read` returns zero bytes with `io.EOF`; and only `Next` promotes the queued
name and exposes the new file's bytes. -/
theorem c9_exhausted_read_stays_in_file (st st2 : ReaderState) (n : Nat)
    (hn : 0 < n) (hname : st.name ≠ []) (hq : st.nextName = [])
    (hcur : st.current = []) (hnc : nextChunk st = .ok st2)
    (hq2 : st2.nextName ≠ []) :
    readerRead st n = ([], none, st2)
      ∧ readerRead st2 n = ([], some .eof, st2)
      ∧ readerNext st2 = .ok (st2.nextName, ⟨st2.entries, st2.current, st2.nextName, 0, []⟩) := by
  refine ⟨?_, ?_, ?_⟩
  · rw [readerRead, if_neg (by simp [hq, hname]), if_neg (by omega)]
    rw [tarRead, if_pos (by simp [hcur])]
    simp only [hnc]
    rw [if_neg (by simp [hq2])]
  · rw [readerRead, if_pos (Or.inl hq2)]
  · rw [readerNext, if_pos hq2]

/-- Witness for `c9_exhausted_read_stays_in_file` on a concrete two-file
archive boundary. -/
theorem c9_exhausted_read_stays_in_file_witness :
    readerRead ⟨[(['c', '.', '0', '0', '0', '0', '0', '0', '0', '0', '0', '0', '0', '0'],
          [3])], [], ['a'], 0, []⟩ 2
      = ([], none, ⟨[], [3], [], 0, ['c']⟩)
      ∧ readerRead ⟨[], [3], [], 0, ['c']⟩ 2 = ([], some .eof, ⟨[], [3], [], 0, ['c']⟩)
      ∧ readerNext (⟨[], [3], [], 0, ['c']⟩ : ReaderState)
        = .ok ((⟨[], [3], [], 0, ['c']⟩ : ReaderState).nextName,
            ⟨(⟨[], [3], [], 0, ['c']⟩ : ReaderState).entries,
              (⟨[], [3], [], 0, ['c']⟩ : ReaderState).current,
              (⟨[], [3], [], 0, ['c']⟩ : ReaderState).nextName, 0, []⟩) :=
  c9_exhausted_read_stays_in_file
    ⟨[(['c', '.', '0', '0', '0', '0', '0', '0', '0', '0', '0', '0', '0', '0'], [3])],
      [], ['a'], 0, []⟩
    ⟨[], [3], [], 0, ['c']⟩ 2 (by decide) (by decide) rfl rfl rfl (by decide)

/-! ## Reader round-trip lemmas -/

theorem pow12_big : (2 : Nat) ≤ 10 ^ 12 := by norm_num

theorem length_le_flatten_length {l : List (List Nat)} (h : ∀ b ∈ l, b ≠ []) :
    l.length ≤ l.flatten.length := by
  induction l with
  | nil => simp
  | cons b bs ih =>
    simp only [List.length_cons, List.flatten_cons, List.length_append]
    have hb : b ≠ [] := h b (by simp)
    have h1 : 0 < b.length := List.length_pos_of_ne_nil hb
    have h2 := ih (fun x hx => h x (by simp [hx]))
    omega

theorem readerNext_entries_nil (nmx : List Char) (jx : Nat) :
    readerNext ⟨[], [], nmx, jx, []⟩ = .error .eof := by
  rw [readerNext]
  rfl

theorem readerNext_pending_promote (st : ReaderState) (h : st.nextName ≠ []) :
    readerNext st = .ok (st.nextName, ⟨st.entries, st.current, st.nextName, 0, []⟩) := by
  rw [readerNext, if_pos h]

theorem readerNext_step {st st1 : ReaderState} (hq : ¬st.nextName ≠ [])
    (hnc : nextChunk st = .ok st1) :
    readerNext st = readerNext st1 := by
  rw [readerNext, if_neg hq]
  split
  · rename_i heq
    rw [hnc] at heq
    exact absurd heq (by simp)
  · rename_i st2 heq
    rw [hnc] at heq
    simp only [Except.ok.injEq] at heq
    rw [heq]

theorem readerRead_current (st : ReaderState) (n : Nat)
    (hname : st.name ≠ []) (hq : st.nextName = [])
    (hcur : st.current ≠ []) (hlen : st.current.length ≤ n) :
    readerRead st n
      = (st.current, none, ⟨st.entries, [], st.name, st.number, st.nextName⟩) := by
  have hn0 : n ≠ 0 := by
    have := List.length_pos_of_ne_nil hcur
    omega
  have htr : tarRead st n
      = (st.current.take n, none, { st with current := st.current.drop n }) := by
    rw [tarRead, if_neg (by simpa [List.isEmpty_iff] using hcur)]
  rw [readerRead, if_neg (by simp [hq, hname]), if_neg hn0, htr,
    List.take_of_length_le hlen, List.drop_eq_nil_of_le hlen]

theorem readerRead_next_same (n : Nat) (nm : List Char) (hnm : nm ≠ []) (j : Nat)
    (hj : j + 1 < 10 ^ 12) (b : List Nat) (hb : b ≠ []) (hlen : b.length ≤ n)
    (tail : List TarEntry) :
    readerRead ⟨(chunkEntryName nm (j + 1), b) :: tail, [], nm, j, []⟩ n
      = (b, none, ⟨tail, [], nm, j + 1, []⟩) := by
  have hn0 : n ≠ 0 := by
    have := List.length_pos_of_ne_nil hb
    omega
  have hnc : nextChunk ⟨(chunkEntryName nm (j + 1), b) :: tail, [], nm, j, []⟩
      = .ok ⟨tail, b, nm, j + 1, []⟩ := by
    simp only [nextChunk, parseChunkName_chunkEntryName hnm hj]
    simp
  have htr2 : tarRead ⟨tail, b, nm, j + 1, []⟩ n
      = (b, none, ⟨tail, [], nm, j + 1, []⟩) := by
    rw [tarRead, if_neg (by simpa [List.isEmpty_iff] using hb),
      List.take_of_length_le hlen, List.drop_eq_nil_of_le hlen]
  rw [readerRead, if_neg (by simp [hnm]), if_neg hn0]
  have htr : tarRead ⟨(chunkEntryName nm (j + 1), b) :: tail, [], nm, j, []⟩ n
      = ([], some .eof, ⟨(chunkEntryName nm (j + 1), b) :: tail, [], nm, j, []⟩) := rfl
  rw [htr]
  simp only [hnc]
  rw [if_pos (by simp), htr2]

theorem readerRead_next_new (n : Nat) (hn : 0 < n) (nm nm' : List Char) (hnm : nm ≠ [])
    (hnm' : nm' ≠ []) (hne : nm' ≠ nm) (j : Nat) (b : List Nat) (tail : List TarEntry) :
    readerRead ⟨(chunkEntryName nm' 0, b) :: tail, [], nm, j, []⟩ n
      = ([], none, ⟨tail, b, [], j, nm'⟩) := by
  have hp0 : parseChunkName (chunkEntryName nm' 0) = some (nm', 0) :=
    parseChunkName_chunkEntryName hnm' (by have := pow12_big; omega)
  have hnc : nextChunk ⟨(chunkEntryName nm' 0, b) :: tail, [], nm, j, []⟩
      = .ok ⟨tail, b, [], j, nm'⟩ := by
    simp only [nextChunk, hp0]
    rw [if_neg hne, if_neg (by omega : ¬(0 : Nat) ≠ 0)]
  rw [readerRead, if_neg (by simp [hnm]), if_neg (by omega)]
  have htr : tarRead ⟨(chunkEntryName nm' 0, b) :: tail, [], nm, j, []⟩ n
      = ([], some .eof, ⟨(chunkEntryName nm' 0, b) :: tail, [], nm, j, []⟩) := rfl
  rw [htr]
  simp only [hnc]
  rw [if_neg (by simp [hnm'])]

theorem readerRead_entries_end (n : Nat) (hn : 0 < n) (nm : List Char) (hnm : nm ≠ [])
    (j : Nat) :
    readerRead ⟨[], [], nm, j, []⟩ n = ([], some .eof, ⟨[], [], nm, j, []⟩) := by
  rw [readerRead, if_neg (by simp [hnm]), if_neg (by omega)]
  rfl

theorem readEntryLoop_rest_nil (n : Nat) (hn : 0 < n) (nm : List Char) (hnm : nm ≠ []) :
    ∀ (j : Nat) (acc : List Nat) (fuel : Nat), 2 ≤ fuel →
      readEntryLoop n ⟨[], [], nm, j, []⟩ acc fuel = some (acc, ⟨[], [], nm, j, []⟩) := by
  intro j acc fuel hfuel
  obtain ⟨f, rfl⟩ : ∃ f, fuel = f + 1 := ⟨fuel - 1, by omega⟩
  rw [readEntryLoop, readerRead_entries_end n hn nm hnm j]
  simp

theorem readEntryLoop_rest_new (n : Nat) (hn : 0 < n) (nm nm' : List Char) (hnm : nm ≠ [])
    (hnm' : nm' ≠ []) (hne : nm' ≠ nm) (b : List Nat) (tail : List TarEntry) :
    ∀ (j : Nat) (acc : List Nat) (fuel : Nat), 2 ≤ fuel →
      readEntryLoop n ⟨(chunkEntryName nm' 0, b) :: tail, [], nm, j, []⟩ acc fuel
        = some (acc, ⟨tail, b, [], j, nm'⟩) := by
  intro j acc fuel hfuel
  obtain ⟨f, rfl⟩ : ∃ f, fuel = f + 2 := ⟨fuel - 2, by omega⟩
  rw [readEntryLoop, readerRead_next_new n hn nm nm' hnm hnm' hne j b tail]
  show readEntryLoop n ⟨tail, b, [], j, nm'⟩ (acc ++ []) (f + 1) = _
  have h2 : readerRead ⟨tail, b, [], j, nm'⟩ n = ([], some .eof, ⟨tail, b, [], j, nm'⟩) := by
    rw [readerRead, if_pos (Or.inl hnm')]
  rw [readEntryLoop, h2]
  simp

theorem readEntryLoop_drain (n : Nat) (hn : 0 < n) (nm : List Char) (hnm : nm ≠ [])
    (rest : List TarEntry) (exitSt : Nat → ReaderState)
    (hrest : ∀ (j : Nat) (acc : List Nat) (fuel : Nat), 2 ≤ fuel →
      readEntryLoop n ⟨rest, [], nm, j, []⟩ acc fuel = some (acc, exitSt j)) :
    ∀ (bs : List (List Nat)), (∀ b ∈ bs, b ≠ [] ∧ b.length ≤ n) →
      ∀ (j : Nat), j + bs.length < 10 ^ 12 →
      ∀ (acc : List Nat) (fuel : Nat), bs.length + 2 ≤ fuel →
      readEntryLoop n ⟨chunksOf nm (j + 1) bs ++ rest, [], nm, j, []⟩ acc fuel
        = some (acc ++ bs.flatten, exitSt (j + bs.length)) := by
  intro bs
  induction bs with
  | nil =>
    intro _ j hj acc fuel hfuel
    simp only [chunksOf, List.nil_append, List.flatten_nil, List.append_nil,
      List.length_nil, Nat.add_zero]
    exact hrest j acc fuel (by omega)
  | cons b bs ih =>
    intro hb j hj acc fuel hfuel
    obtain ⟨f, rfl⟩ : ∃ f, fuel = f + 1 := ⟨fuel - 1, by omega⟩
    have hbspec := hb b (by simp)
    simp only [List.length_cons] at hj hfuel
    rw [chunksOf, List.cons_append, readEntryLoop,
      readerRead_next_same n nm hnm j (by omega) b hbspec.1 hbspec.2
        (chunksOf nm (j + 1 + 1) bs ++ rest)]
    show readEntryLoop n ⟨chunksOf nm (j + 1 + 1) bs ++ rest, [], nm, j + 1, []⟩
        (acc ++ b) f = _
    rw [ih (fun x hx => hb x (by simp [hx])) (j + 1) (by omega) (acc ++ b) f (by omega)]
    have hjj : j + 1 + bs.length = j + (bs.length + 1) := by omega
    rw [hjj]
    simp [List.append_assoc]

theorem readEntryLoop_file (n : Nat) (hn : 0 < n) (nm : List Char) (hnm : nm ≠ [])
    (rest : List TarEntry) (exitSt : Nat → ReaderState)
    (hrest : ∀ (j : Nat) (acc : List Nat) (fuel : Nat), 2 ≤ fuel →
      readEntryLoop n ⟨rest, [], nm, j, []⟩ acc fuel = some (acc, exitSt j))
    (b0 : List Nat) (bs : List (List Nat))
    (hball : ∀ b ∈ b0 :: bs, b ≠ [] ∧ b.length ≤ n)
    (hcount : bs.length < 10 ^ 12)
    (fuel : Nat) (hfuel : bs.length + 3 ≤ fuel) :
    readEntryLoop n ⟨chunksOf nm 1 bs ++ rest, b0, nm, 0, []⟩ [] fuel
      = some (b0 ++ bs.flatten, exitSt bs.length) := by
  obtain ⟨f, rfl⟩ : ∃ f, fuel = f + 1 := ⟨fuel - 1, by omega⟩
  have hb0 := hball b0 (by simp)
  rw [readEntryLoop,
    readerRead_current ⟨chunksOf nm 1 bs ++ rest, b0, nm, 0, []⟩ n hnm rfl hb0.1 hb0.2]
  show readEntryLoop n ⟨chunksOf nm 1 bs ++ rest, [], nm, 0, []⟩ ([] ++ b0) f = _
  rw [show (chunksOf nm 1 bs : List TarEntry) = chunksOf nm (0 + 1) bs from rfl,
    readEntryLoop_drain n hn nm hnm rest exitSt hrest bs
      (fun x hx => hball x (by simp [hx])) 0 (by omega) ([] ++ b0) f (by omega)]
  simp

theorem readAll_congr_next (n i : Nat) {st st' : ReaderState}
    (h : readerNext st = readerNext st') (f : Nat) :
    readAll n i st (f + 1) = readAll n i st' (f + 1) := by
  rw [readAll, readAll, h]

theorem readAll_spec (n : Nat) (hn : 0 < n) :
    ∀ (outs : List (List Char × List (List Nat))),
      (∀ o ∈ outs, o.1 ≠ [] ∧ o.2 ≠ [] ∧ (∀ b ∈ o.2, b ≠ [] ∧ b.length ≤ n)
          ∧ o.2.length ≤ 10 ^ 12) →
      List.Chain' (fun a b => a.1 ≠ b.1) outs →
      ∀ (innerFuel : Nat), (∀ o ∈ outs, o.2.length + 2 ≤ innerFuel) →
      ∀ (fuel : Nat), outs.length + 1 ≤ fuel →
      (outs = [] → ∀ (nmx : List Char) (jx : Nat),
          readAll n innerFuel ⟨[], [], nmx, jx, []⟩ fuel = some [])
        ∧ ∀ (nm : List Char) (bodies : List (List Nat))
            (rest : List (List Char × List (List Nat))) (b0 : List Nat)
            (bs : List (List Nat)) (jx : Nat),
            outs = (nm, bodies) :: rest → bodies = b0 :: bs →
            readAll n innerFuel
                ⟨chunksOf nm 1 bs ++ archiveFor rest, b0, [], jx, nm⟩ fuel
              = some (outs.map (fun o => (o.1, o.2.flatten))) := by
  intro outs
  induction outs with
  | nil =>
    intro _ _ innerFuel _ fuel hfuel
    refine ⟨fun _ nmx jx => ?_, fun nm bodies rest b0 bs jx h => absurd h (by simp)⟩
    obtain ⟨f, rfl⟩ : ∃ f, fuel = f + 1 := ⟨fuel - 1, by omega⟩
    rw [readAll, readerNext_entries_nil]
  | cons o outs' ih =>
    intro houts hchain innerFuel hinner fuel hfuel
    refine ⟨fun h => absurd h (by simp), ?_⟩
    intro nm bodies rest b0 bs jx houtseq hbodies
    injection houtseq with ho hrest
    subst ho
    subst hrest
    subst hbodies
    obtain ⟨f, rfl⟩ : ∃ f, fuel = f + 1 := ⟨fuel - 1, by omega⟩
    have hhead := houts (nm, b0 :: bs) (by simp)
    have hnm : nm ≠ [] := hhead.1
    have hball : ∀ b ∈ b0 :: bs, b ≠ [] ∧ b.length ≤ n := hhead.2.2.1
    have hcount : bs.length < 10 ^ 12 := by
      have := hhead.2.2.2
      simp only [List.length_cons] at this
      omega
    have hinner1 : bs.length + 3 ≤ innerFuel := by
      have := hinner (nm, b0 :: bs) (by simp)
      simp only [List.length_cons] at this
      omega
    rw [readAll, readerNext_pending_promote ⟨chunksOf nm 1 bs ++ archiveFor outs', b0, [],
      jx, nm⟩ hnm]
    show (match readEntryLoop n ⟨chunksOf nm 1 bs ++ archiveFor outs', b0, nm, 0, []⟩ []
        innerFuel with
      | none => none
      | some (bytes, st2) => (readAll n innerFuel st2 f).map ((nm, bytes) :: ·)) = _
    have ihtail := ih (fun o ho => houts o (by simp [ho])) hchain.tail innerFuel
      (fun o ho => hinner o (by simp [ho])) f (by simp only [List.length_cons] at hfuel; omega)
    cases outs' with
    | nil =>
      rw [readEntryLoop_file n hn nm hnm (archiveFor []) (fun j => ⟨[], [], nm, j, []⟩)
        (by
          intro j acc fuel2 hf2
          show readEntryLoop n ⟨[], [], nm, j, []⟩ acc fuel2 = _
          exact readEntryLoop_rest_nil n hn nm hnm j acc fuel2 hf2)
        b0 bs hball hcount innerFuel hinner1]
      show (readAll n innerFuel ⟨[], [], nm, bs.length, []⟩ f).map _ = _
      rw [ihtail.1 rfl nm bs.length]
      simp
    | cons o2 outs₂ =>
      obtain ⟨nm2, bodies2⟩ := o2
      have h2 := houts (nm2, bodies2) (by simp)
      have hnm2 : nm2 ≠ [] := h2.1
      cases hbod2 : bodies2 with
      | nil => exact absurd hbod2 h2.2.1
      | cons b02 bs2 =>
        subst hbod2
        have hne2 : nm2 ≠ nm := by
          have := List.chain'_cons.mp hchain
          exact fun h => this.1 h.symm
        have harch2 : archiveFor ((nm2, b02 :: bs2) :: outs₂)
            = (chunkEntryName nm2 0, b02) :: (chunksOf nm2 1 bs2 ++ archiveFor outs₂) := by
          simp [archiveFor, chunksOf]
        rw [harch2, readEntryLoop_file n hn nm hnm
          ((chunkEntryName nm2 0, b02) :: (chunksOf nm2 1 bs2 ++ archiveFor outs₂))
          (fun j => ⟨chunksOf nm2 1 bs2 ++ archiveFor outs₂, b02, [], j, nm2⟩)
          (fun j acc fuel2 hf2 =>
            readEntryLoop_rest_new n hn nm nm2 hnm hnm2 hne2 b02
              (chunksOf nm2 1 bs2 ++ archiveFor outs₂) j acc fuel2 hf2)
          b0 bs hball hcount innerFuel hinner1]
        show (readAll n innerFuel ⟨chunksOf nm2 1 bs2 ++ archiveFor outs₂, b02, [],
            bs.length, nm2⟩ f).map _ = _
        rw [ihtail.2 nm2 (b02 :: bs2) outs₂ b02 bs2 bs.length rfl rfl]
        simp

theorem forall₂_map_flatten {specs outs : List (List Char × List (List Nat))}
    (h : List.Forall₂ (fun s o => o.1 = s.1 ∧ EntryChunksOK s.2 o.2) specs outs) :
    outs.map (fun o => (o.1, o.2.flatten)) = specs.map (fun s => (s.1, s.2.flatten)) := by
  induction h with
  | nil => rfl
  | cons hrel htail ih =>
    simp only [List.map_cons, ih]
    congr 1
    simp [hrel.1, hrel.2.1]

theorem forall₂_names_chain {specs outs : List (List Char × List (List Nat))}
    (h : List.Forall₂ (fun s o => o.1 = s.1 ∧ EntryChunksOK s.2 o.2) specs outs)
    (hc : List.Chain' (fun a b => a.1 ≠ b.1) specs) :
    List.Chain' (fun a b => a.1 ≠ b.1) outs := by
  induction h with
  | nil => exact List.chain'_nil
  | cons hrel htail ih =>
    rename_i s o ss os
    have hcc := List.chain'_cons'.mp hc
    refine List.chain'_cons'.mpr ⟨?_, ih hcc.2⟩
    intro y hy
    cases htail with
    | nil => simp at hy
    | cons hrel2 h3 =>
      rename_i s2 o2 ss2 os2
      simp only [List.head?_cons, Option.mem_def, Option.some.injEq] at hy
      subst hy
      have hP := hcc.1 s2 (by simp)
      rw [hrel.1, hrel2.1]
      exact hP

/-- C1, counterexample: an entry written with zero bytes vanishes from the
archive (no chunk is emitted for it), so no reading of the resulting archive
can yield the written `(name, bytes)` sequence. -/
theorem c1_counterexample_empty_entry_lost :
    archiveOf (pairsOps [(['a'], [])]) = some []
      ∧ ∀ (n innerFuel fuel : Nat),
          readAll n innerFuel (initReader []) fuel
            ≠ some ([(['a'], ([] : List (List Nat)))].map (fun s => (s.1, s.2.flatten))) := by
  refine ⟨by decide, ?_⟩
  intro n innerFuel fuel
  cases fuel with
  | zero => simp [readAll]
  | succ f =>
    rw [show (initReader [] : ReaderState) = ⟨[], [], [], 0, []⟩ from rfl,
      readAll, readerNext_entries_nil]
    simp

/-- C1 (amended): round-trip integrity holds for write sequences in which
every entry has a non-empty logical name and a non-empty total byte stream of
at most `10 ^ 12` bytes, and consecutive entries carry distinct names: the
reader yields the same names in the same order, and for each name the
concatenation of all bytes returned by `Read` equals the bytes written. -/
theorem c1_round_trip (specs : List (List Char × List (List Nat)))
    (hname : ∀ s ∈ specs, s.1 ≠ [])
    (hbytes : ∀ s ∈ specs, s.2.flatten ≠ [])
    (hsize : ∀ s ∈ specs, s.2.flatten.length ≤ 10 ^ 12)
    (hdist : List.Chain' (fun a b => a.1 ≠ b.1) specs) :
    ∃ (archive : List TarEntry) (innerFuel fuel : Nat),
      archiveOf (pairsOps specs) = some archive
        ∧ readAll bufferLimit innerFuel (initReader archive) fuel
          = some (specs.map (fun s => (s.1, s.2.flatten))) := by
  obtain ⟨st', outs, hrun, harch, hfa⟩ := runWriter_spec specs
  have houts : ∀ o ∈ outs, o.1 ≠ [] ∧ o.2 ≠ []
      ∧ (∀ b ∈ o.2, b ≠ [] ∧ b.length ≤ bufferLimit) ∧ o.2.length ≤ 10 ^ 12 := by
    intro o ho
    obtain ⟨s, hs, hrel⟩ := forall₂_mem_right hfa o ho
    obtain ⟨hn1, hflat, hsz, hlast⟩ := hrel
    refine ⟨?_, ?_, hsz, ?_⟩
    · rw [hn1]
      exact hname s hs
    · intro hnil
      exact hbytes s hs (by rw [← hflat, hnil]; rfl)
    · have hl := length_le_flatten_length (fun b hb => (hsz b hb).1)
      have he : o.2.flatten.length = s.2.flatten.length := by rw [hflat]
      have hss := hsize s hs
      omega
  have hchain := forall₂_names_chain hfa hdist
  have hmap := forall₂_map_flatten hfa
  have hL : (0 : Nat) < bufferLimit := by decide
  have hinner : ∀ o ∈ outs, o.2.length + 2 ≤ 10 ^ 12 + 2 := by
    intro o ho
    have := (houts o ho).2.2.2
    omega
  have hspec := readAll_spec bufferLimit hL outs houts hchain (10 ^ 12 + 2) hinner
    (outs.length + 1) (le_refl _)
  refine ⟨archiveFor outs, 10 ^ 12 + 2, outs.length + 1, ?_, ?_⟩
  · rw [archiveOf, hrun]
    simp [harch]
  · rcases outs with _ | ⟨⟨nm, bodies⟩, outs'⟩
    · have hspecs : specs = [] := by cases hfa; rfl
      subst hspecs
      simp only [List.map_nil]
      rw [show initReader (archiveFor []) = (⟨[], [], [], 0, []⟩ : ReaderState) from rfl]
      exact hspec.1 rfl [] 0
    · have hhead := houts (nm, bodies) (by simp)
      rcases bodies with _ | ⟨b0, bs⟩
      · exact absurd rfl hhead.2.1
      · have hnm := hhead.1
        have hstart : initReader (archiveFor ((nm, b0 :: bs) :: outs'))
            = ⟨(chunkEntryName nm 0, b0) :: (chunksOf nm 1 bs ++ archiveFor outs'),
                [], [], 0, []⟩ := by
          simp [initReader, archiveFor, chunksOf]
        rw [hstart]
        have hp0 : parseChunkName (chunkEntryName nm 0) = some (nm, 0) :=
          parseChunkName_chunkEntryName hnm (by have := pow12_big; omega)
        have hnc0 : nextChunk ⟨(chunkEntryName nm 0, b0)
              :: (chunksOf nm 1 bs ++ archiveFor outs'), [], [], 0, []⟩
            = .ok ⟨chunksOf nm 1 bs ++ archiveFor outs', b0, [], 0, nm⟩ := by
          simp only [nextChunk, hp0]
          rw [if_neg hnm, if_neg (by omega : ¬(0 : Nat) ≠ 0)]
        have hbr := readerNext_step (by simp) hnc0
        have hcongr := readAll_congr_next bufferLimit (10 ^ 12 + 2) hbr (outs'.length + 1)
        simp only [List.length_cons] at hspec ⊢
        rw [hcongr, hspec.2 nm (b0 :: bs) outs' b0 bs 0 rfl rfl, hmap]

/-- Witness for `c1_round_trip` on a concrete two-entry write sequence. -/
theorem c1_round_trip_witness :
    ∃ (archive : List TarEntry) (innerFuel fuel : Nat),
      archiveOf (pairsOps [(['a'], [[1, 2]]), (['b'], [[3]])]) = some archive
        ∧ readAll bufferLimit innerFuel (initReader archive) fuel
          = some ([(['a'], [[1, 2]]), (['b'], [[3]])].map (fun s => (s.1, s.2.flatten))) :=
  c1_round_trip [(['a'], [[1, 2]]), (['b'], [[3]])] (by decide) (by decide) (by decide)
    (by simp)

end Chunktar

namespace Mongorestore

/-! ## Driver lemmas and driver claims (C2, C3, C4, C10) -/

/-- Hypothesis for the amended C10: the collaborator produces an intent for
every file that reaches intent construction. -/
def IntentProduced (env : Env) : Prop :=
  ∀ d c ft fl, ((env.createIntentForFile d c ft fl).1).isSome = true

/-- The nil-safety invariant: a non-nil `SystemIndexes` map implies a non-nil
`Intent`. -/
def IntentInv (st : TarRestoreState) : Prop :=
  st.systemIndexes.isSome = true → st.intent.isSome = true

theorem changeCollection_of_inv {env : Env} {st : TarRestoreState} {c : String}
    (h : IntentInv st) :
    ∃ st1 ev r, changeCollection env st c = some (st1, ev, r) ∧
      st1.systemIndexes = st.systemIndexes ∧ st1.intent = st.intent := by
  unfold changeCollection
  by_cases hrm : st.restoredMetadata
  · simp only [hrm, if_true]
    cases env.restoreIndexes st.intent st.metadataIndexes <;> simp
  · simp only [hrm, if_false]
    cases hsi : st.systemIndexes with
    | none => simp
    | some m =>
      have hint : st.intent.isSome = true := h (by simp [hsi])
      cases hit : st.intent with
      | none => rw [hit] at hint; simp at hint
      | some it =>
        simp only
        cases sysLookup m it.c with
        | none => simp [hsi, hit]
        | some specs =>
          simp only
          cases env.restoreIndexes (some it) specs <;> simp [hsi, hit]

theorem changeDatabase_never_faults {env : Env} {st : TarRestoreState} {d : String} :
    ∃ st1 ev r, changeDatabase env st d = some (st1, ev, r) ∧
      st1.systemIndexes = none ∧ st1.intent = st.intent := by
  unfold changeDatabase
  exact changeCollection_of_inv (by intro hsi; simp at hsi)

theorem dbTransitionStep_of_inv {env : Env} {st : TarRestoreState} {d : String}
    (h : IntentInv st) :
    (∃ stB evB, dbTransitionStep env st d = .inl (some (stB, evB)) ∧ IntentInv stB)
      ∨ dbTransitionStep env st d = .inr () := by
  unfold dbTransitionStep
  by_cases hne : d ≠ st.currentDb
  · by_cases hsd : st.singleDb
    · right; simp [hne, hsd]
    · left
      obtain ⟨st1, ev1, r1, heq, hsi, _⟩ :=
        @changeDatabase_never_faults env st d
      exact ⟨st1, ev1, by simp [hne, hsd, heq], by intro hx; rw [hsi] at hx; simp at hx⟩
  · left; exact ⟨st, [], by simp [hne], h⟩

theorem collTransitionStep_of_inv {env : Env} {st : TarRestoreState} {c : String}
    {sys : Bool} (h : IntentInv st) :
    (∃ stB evB, collTransitionStep env st c sys = .inl (some (stB, evB)) ∧ IntentInv stB)
      ∨ collTransitionStep env st c sys = .inr () := by
  unfold collTransitionStep
  by_cases hne : c ≠ st.currentCollection
  · rw [if_pos hne]
    by_cases hsc : st.singleCollection ∧ ¬ sys = true
    · right; rw [if_pos hsc]
    · left
      rw [if_neg hsc]
      obtain ⟨st1, ev1, r1, heq, hsi, hit⟩ := @changeCollection_of_inv env st c h
      refine ⟨st1, ev1, by rw [heq], ?_⟩
      intro hx
      rw [hsi] at hx
      rw [hit]
      exact h hx
  · left; exact ⟨st, [], by rw [if_neg hne], h⟩

/-- `dispatchFile` stores the produced intent and never changes it
afterwards. -/
theorem dispatchFile_intent {env : Env} {st : TarRestoreState} {f : TarFile}
    {sys : Bool} :
    (dispatchFile env st f sys).1.intent
      = (env.createIntentForFile f.db f.coll f.ft st.usesMetadataFiles).1 := by
  unfold dispatchFile
  cases hio : (env.createIntentForFile f.db f.coll f.ft st.usesMetadataFiles).1 with
  | none => simp [afterIntent, hio]
  | some it =>
    have hbase : (afterIntent env st f).intent = some it := by simp [afterIntent, hio]
    have hbeg : ∀ stA : TarRestoreState, stA.intent = some it →
        (beginPhase env stA it sys).1.intent = some it ∧
        (beginPhase env stA it sys).2.1 = [CallEvent.beginColl it] ∨
        (beginPhase env stA it sys).1.intent = some it := by
      intro stA hA
      unfold beginPhase
      split
      · left; simp [hA]
      · right; simp [hA]
    have hkind : ∀ stA : TarRestoreState, stA.intent = some it →
        (dispatchKind env stA f it sys).1.intent = some it := by
      intro stA hA
      unfold dispatchKind
      split
      · split <;> simp [hA]
      · split
        · split <;> simp [hA]
        · simp [hA]
    simp only
    rcases hb2 : beginPhase env (afterIntent env st f) it sys with ⟨stB, evB, e⟩
    have hBint : stB.intent = some it := by
      have hx := hbeg (afterIntent env st f) hbase
      rcases hx with ⟨h1, _⟩ | h1 <;> (rw [hb2] at h1; exact h1)
    cases e with
    | some err =>
      simp only [hb2]
      simpa using hBint
    | none =>
      rcases hk2 : dispatchKind env stB f it sys with ⟨stC, evC, r⟩
      have h5 := hkind stB hBint
      rw [hk2] at h5
      simp only [hb2, hk2]
      simpa using h5

theorem dispatchFile_of_inv {env : Env} {st : TarRestoreState} {f : TarFile}
    {sys : Bool} (hp : IntentProduced env) :
    IntentInv (dispatchFile env st f sys).1 := by
  intro _
  rw [dispatchFile_intent]
  exact hp f.db f.coll f.ft st.usesMetadataFiles

theorem processFile_of_inv {env : Env} {st : TarRestoreState} {f : TarFile}
    (hp : IntentProduced env) (h : IntentInv st) :
    ∃ st1 ev r, processFile env st f = some (st1, ev, r) ∧ IntentInv st1 := by
  unfold processFile
  by_cases h1 : f.ft = FileType.unknownFile
  · exact ⟨st, [], none, by simp [h1], h⟩
  by_cases h2 : env.validDb f.db
  swap
  · exact ⟨st, [], none, by simp [h1, h2], h⟩
  by_cases h3 : env.validColl f.coll
  swap
  · exact ⟨st, [], none, by simp [h1, h2, h3], h⟩
  simp only [h1, h2, h3, if_false, if_true, not_true, not_false_iff, ite_false, ite_true]
  rcases @dbTransitionStep_of_inv env st f.db h with ⟨stB, evB, hdb, hB⟩ | hdb
  · simp only [hdb]
    rcases @collTransitionStep_of_inv env stB f.coll (goHasPfx "system." f.coll) hB
      with ⟨stC, evC, hcoll, hC⟩ | hcoll
    · simp only [hcoll]
      by_cases hlate : stC.restoredBSON ∧ f.ft = FileType.metadataFile
      · exact ⟨stC, evB ++ evC, none, by simp [hlate], hC⟩
      · simp only [hlate, if_false, ite_false]
        refine ⟨(dispatchFile env stC f (goHasPfx "system." f.coll)).1, _, _, rfl, ?_⟩
        exact dispatchFile_of_inv hp
    · simp only [hcoll]
      exact ⟨stB, evB, none, rfl, hB⟩
  · simp only [hdb]
    exact ⟨st, [], none, rfl, h⟩

theorem runFiles_of_inv {env : Env} (hp : IntentProduced env) :
    ∀ (files : List TarFile) (st : TarRestoreState), IntentInv st →
    ∃ st1 ev r, runFiles env st files = some (st1, ev, r) ∧ IntentInv st1 := by
  intro files
  induction files with
  | nil => intro st h; exact ⟨st, [], none, rfl, h⟩
  | cons f fs ih =>
    intro st h
    obtain ⟨stA, evA, rA, hA, hInvA⟩ := @processFile_of_inv env st f hp h
    cases rA with
    | some e =>
      refine ⟨stA, evA, some e, ?_, hInvA⟩
      simp [runFiles, hA]
    | none =>
      obtain ⟨stB, evB, rB, hB, hInvB⟩ := ih stA hInvA
      refine ⟨stB, evA ++ evB, rB, ?_, hInvB⟩
      simp [runFiles, hA, hB]

/-- C10 (amended): if the collaborator produces an intent for every file that
reaches intent construction, the driver never performs the nil dereference:
`RestoreTarDump` runs to an outcome on every archive. -/
theorem restoreTarDump_no_fault {env : Env} (hp : IntentProduced env)
    (files : List TarFile) : (restoreTarDump env files).isSome = true := by
  have hinv0 : IntentInv (newTarRestoreState env) := by
    intro hx
    simp [newTarRestoreState] at hx
  obtain ⟨st1, ev, r, hrun, hInv⟩ := runFiles_of_inv hp files _ hinv0
  cases r with
  | some e => simp [restoreTarDump, hrun]
  | none =>
    obtain ⟨st2, ev2, r2, hcc, _, _⟩ := @changeCollection_of_inv env st1 "" hInv
    simp [restoreTarDump, hrun, hcc]

/-- Witness for `restoreTarDump_no_fault` at a concrete collaborator and
archive. -/
theorem restoreTarDump_no_fault_witness :
    IntentProduced benignEnv
      ∧ (restoreTarDump benignEnv dbTransitionFiles).isSome = true := by
  have hp : IntentProduced benignEnv := by
    intro d c ft fl
    rfl
  exact ⟨hp, restoreTarDump_no_fault hp dbTransitionFiles⟩

/-- C10, counterexample: the claim asserts the `state.Intent.C` dereference in
`ChangeCollection` never faults, for every archive.  But after a
`system.indexes` BSON file sets `SystemIndexes`, a file whose
`CreateIntentForFile` returns nil (a case line 442 of the source explicitly
anticipates) leaves `state.Intent == nil`, and the next collection transition
evaluates `state.SystemIndexes[state.Intent.C]` with a nil `Intent`: a
nil-pointer fault, modelled as the `none` outcome. -/
theorem c10_counterexample_nil_intent_fault :
    restoreTarDump nilIntentEnv nilIntentFiles = none := by decide

/-- C2: driver run on `db1/system.indexes.bson` (with an entry for `orders`),
`db1/orders.bson`, `db2/x.bson`.  Collection `orders` has a matching
`system.indexes` entry, so the claim demands exactly one
`RestoreCollectionIndexes` call for it; but `ChangeDatabase` clears
`SystemIndexes` *before* its flushing `ChangeCollection("")`, so the run
completes without error and with zero `RestoreCollectionIndexes` calls. -/
theorem c2_db_transition_drops_system_indexes :
    (restoreTarDump benignEnv dbTransitionFiles).map
        (fun r => (r.1, countRestoreIndexes r.2)) = some (none, 0) := by decide

/-- C3: with a collaborator whose `RestoreCollectionBSON` fails with error 42
on a single plain BSON file, the claim demands that `RestoreTarDump` abort
and return that error; but the error is assigned to `err` and never checked
(the loop's post-statement overwrites it), so the run returns `nil` while the
`RestoreCollectionBSON` call did happen. -/
theorem c3_collection_bson_error_swallowed :
    (restoreTarDump bsonErrEnv oneBsonFile).map
        (fun r => (r.1, r.2.countP (fun e => match e with
          | CallEvent.bson _ => true | _ => false)))
      = some (none, 1) := by decide

/-- C4: driver run on `db1/users.bson` followed by `db1/users.metadata.json`.
The claim says the late metadata file is skipped (no
`RestoreCollectionMetadata` call) because restoring BSON sets `restored_bson`;
but `state.RestoredBSON = true` is never executed anywhere in
`RestoreTarDump`, so the guard at line 435 cannot fire and the late metadata
is restored: one `RestoreCollectionMetadata` call is made, and its indexes
are even flushed at the end. -/
theorem c4_late_metadata_still_restored :
    (restoreTarDump benignEnv lateMetadataFiles).map
        (fun r => (countMetadata r.2, countRestoreIndexes r.2)) = some (1, 1) := by
  decide

end Mongorestore
